import Mathlib

/-!
Shallow embedding of the concept consolidation engine of the
past-papers-concepts repository, together with theorems checking the
natural-language specification against it.

The embedding follows the Python source:
  - src/models/concept.py   (Concept, ConceptRelation, Occurrence)
  - src/text_analyzer.py    (TextAnalyzer.store_concept,
                             TextAnalyzer.store_concept_relations,
                             TextAnalyzer.process_and_store_concepts,
                             TextAnalyzer.extract_concepts_from_pdf,
                             TextAnalyzer._deduplicate_concepts, main)
  - src/paper_ingestor.py   (PaperIngestor.mark_paper_processed)

The relational store is modelled as lists of rows with explicit
autoincrement counters; the SQLAlchemy session is modelled by threading
the store state, with rollback restoring the last committed state.
Python floats are modelled as rationals; Python exceptions as Except.
-/

namespace PastPapers

/-- Python truthiness of an optional string value: None and the empty
string are falsy, every other string is truthy. -/
def optTruthy : Option String → Bool
  | none => false
  | some s => !(s == "")

/-- Clamp to the unit interval, as in the Python idiom
min(max(x, 0.0), 1.0) used by the model constructors. -/
def clamp01 (q : ℚ) : ℚ := min (max q 0) 1

/-- A JSON-ish confidence value as it arrives from the LLM output:
either a number or a non-numeric value (modelled as a string). -/
inductive ConfVal where
  | num (q : ℚ)
  | str (s : String)
deriving DecidableEq, Repr

/-- Python exceptions that the embedded code can raise. -/
inductive PyErr where
  | keyError (k : String)
  | typeError
  | attributeError
deriving DecidableEq, Repr

/-- One raw candidate record (the concept_data dict handed to
store_concept). A field whose value is none models both an absent key
and a JSON null, which the source treats identically through get and
truthiness, except for name where none models an absent key (the source
reads concept_data[\x22name\x22], raising KeyError when absent). -/
structure ConceptData where
  name : Option String
  category : Option String
  description : Option String
  context : Option String
  confidence : Option ConfVal
  related_concepts : List String
  parent_concept : Option String
deriving DecidableEq, Repr

/-- A row of the concepts table (models/concept.py, class Concept). -/
structure Concept where
  id : Nat
  name : String
  category : Option String
  description : Option String
  parent_concept_id : Option Nat
deriving DecidableEq, Repr

/-- A row of the concept_relations table (class ConceptRelation). -/
structure ConceptRelation where
  id : Nat
  concept1_id : Nat
  concept2_id : Nat
  relation_type : String
  strength : ℚ
deriving DecidableEq, Repr

/-- A row of the occurrences table (class Occurrence). -/
structure Occurrence where
  id : Nat
  concept_id : Nat
  paper_id : Nat
  question : Option String
  context : Option String
  confidence : ℚ
deriving DecidableEq, Repr

/-- The relational store as the session sees it. The source session is
created with autoflush=False (models/base.py line 17), so a row added
with db.add becomes visible to queries only after a flush: relations
holds the relation rows queries can see, pendingRelations the added but
not yet flushed ones. Every concept insert in the source is followed by
an explicit db.flush(), which also pushes every pending row, so
concepts are always query-visible and need no pending part; occurrence
rows are never queried before commit, so their pending period is
unobservable and they are kept directly in the table. -/
structure DB where
  concepts : List Concept
  relations : List ConceptRelation
  pendingRelations : List ConceptRelation
  occurrences : List Occurrence
  nextConceptId : Nat
  nextRelationId : Nat
  nextOccurrenceId : Nat
deriving DecidableEq, Repr

/-- A fresh store. -/
def emptyDB : DB :=
  { concepts := [], relations := [], pendingRelations := [],
    occurrences := [], nextConceptId := 1, nextRelationId := 1,
    nextOccurrenceId := 1 }

/-- All relation rows present in the session, flushed and pending: this
is what the store holds once the transaction is flushed or committed. -/
def DB.sessionRelations (db : DB) : List ConceptRelation :=
  db.relations ++ db.pendingRelations

/-- Occurrence.__init__: stores the fields and clamps confidence with
min(max(confidence, 0.0), 1.0). In Python that clamp raises TypeError
when confidence is a non-numeric value such as a string. -/
def occurrenceInit (oid concept_id paper_id : Nat)
    (question context : Option String) (confidence : ConfVal) :
    Except PyErr Occurrence :=
  match confidence with
  | .num q =>
      .ok { id := oid, concept_id := concept_id, paper_id := paper_id,
            question := question, context := context,
            confidence := clamp01 q }
  | .str _ => .error .typeError

/-- ConceptRelation.__init__: stores the fields and clamps strength;
the strength parameter defaults to 1.0 in the source. -/
def conceptRelationInit (rid concept1_id concept2_id : Nat)
    (relation_type : String) (strength : ℚ := 1) : ConceptRelation :=
  { id := rid, concept1_id := concept1_id, concept2_id := concept2_id,
    relation_type := relation_type, strength := clamp01 strength }

/-- db.query(Concept).filter(Concept.name == name).first with the
default case-sensitive string equality of the store. -/
def DB.findConcept (db : DB) (name : String) : Option Concept :=
  db.concepts.find? (fun c => c.name == name)

/-- db.query(ConceptRelation).filter(concept1_id == c1,
concept2_id == c2).first. -/
def DB.findRelation (db : DB) (c1 c2 : Nat) : Option ConceptRelation :=
  db.relations.find? (fun r => r.concept1_id == c1 && r.concept2_id == c2)

/-- TextAnalyzer.store_concept. Looks the concept up by exact name;
when found, fills category and description first-write-wins under
Python truthiness and reuses the row; otherwise creates a new row.
Then inserts a new Occurrence; concept_data.get(\x22confidence\x22, 1.0)
supplies 1.0 when the confidence key is absent. An error return models
a raised exception; the only caller rolls the session back on it, so no
partial state is returned on the error path. -/
def store_concept (concept_data : ConceptData) (paperId : Nat) (db : DB) :
    Except PyErr (Concept × DB) :=
  match concept_data.name with
  | none => .error (.keyError "name")
  | some name =>
    let (concept, db1) : Concept × DB :=
      match db.findConcept name with
      | some existing =>
          let concept :=
            { existing with
              category :=
                if !optTruthy existing.category && optTruthy concept_data.category
                then concept_data.category else existing.category,
              description :=
                if !optTruthy existing.description && optTruthy concept_data.description
                then concept_data.description else existing.description }
          (concept,
           { db with concepts :=
               db.concepts.map (fun c => if c.id == existing.id then concept else c) })
      | none =>
          let concept : Concept :=
            { id := db.nextConceptId, name := name,
              category := concept_data.category,
              description := concept_data.description,
              parent_concept_id := none }
          -- db.add(concept); db.flush(): the flush also pushes every
          -- pending relation row into query-visible state
          (concept,
           { db with concepts := db.concepts ++ [concept],
                     nextConceptId := db.nextConceptId + 1,
                     relations := db.relations ++ db.pendingRelations,
                     pendingRelations := [] })
    match occurrenceInit db1.nextOccurrenceId concept.id paperId
        none concept_data.context (concept_data.confidence.getD (.num 1)) with
    | .error e => .error e
    | .ok occurrence =>
        .ok (concept,
          { db1 with occurrences := db1.occurrences ++ [occurrence],
                     nextOccurrenceId := db1.nextOccurrenceId + 1 })

/-- The find-or-create snippet the source spells out twice, at
text_analyzer.py lines 386-390 (relation targets, bare creation) and
lines 482-491 (parent concepts): query by name, else insert a concept
carrying only the name and flush to obtain its id. -/
def findOrCreateBare (name : String) (db : DB) : Concept × DB :=
  match db.findConcept name with
  | some r => (r, db)
  | none =>
      let r : Concept :=
        { id := db.nextConceptId, name := name,
          category := none, description := none,
          parent_concept_id := none }
      -- db.add(r); db.flush(): the flush also pushes every pending
      -- relation row into query-visible state
      (r, { db with concepts := db.concepts ++ [r],
                    nextConceptId := db.nextConceptId + 1,
                    relations := db.relations ++ db.pendingRelations,
                    pendingRelations := [] })

/-- The loop body state of TextAnalyzer.store_concept_relations:
the accumulated relations list and the session state. -/
def store_concept_relations_go (conceptId : Nat) (names : List String)
    (rels : List ConceptRelation) (db : DB) : List ConceptRelation × DB :=
  match names with
  | [] => (rels, db)
  | related_name :: rest =>
    -- Skip empty names
    if related_name == "" then
      store_concept_relations_go conceptId rest rels db
    else
      -- Find or create related concept
      let (related, db1) := findOrCreateBare related_name db
      -- Check if relation already exists; create only when absent
      -- the session never flushes between db.add(relation) and this
      -- query (autoflush=False), so only flushed relation rows are seen
      match db1.findRelation conceptId related.id with
      | some _ => store_concept_relations_go conceptId rest rels db1
      | none =>
          -- db.add(relation): the row stays pending until the next
          -- flush; its id is assigned at flush in the source but never
          -- read before then, so assigning it here is observationally
          -- equal
          let relation := conceptRelationInit db1.nextRelationId conceptId
              related.id "related"
          store_concept_relations_go conceptId rest (rels ++ [relation])
            { db1 with
              pendingRelations := db1.pendingRelations ++ [relation],
              nextRelationId := db1.nextRelationId + 1 }

/-- TextAnalyzer.store_concept_relations. -/
def store_concept_relations (concept : Concept) (related_names : List String)
    (db : DB) : List ConceptRelation × DB :=
  store_concept_relations_go concept.id related_names [] db

/-- The parent-relation block of process_and_store_concepts: when the
candidate carries a truthy parent_concept, find-or-create the parent by
name and set concept.parent_concept_id to its id unconditionally. -/
def storeParentRelation (concept : Concept) (concept_data : ConceptData)
    (db : DB) : DB :=
  match concept_data.parent_concept with
  | none => db
  | some parent_name =>
    if parent_name == "" then db
    else
      let (parent, db1) := findOrCreateBare parent_name db
      -- concept.parent_concept_id = parent.id  (no currently-unset check)
      { db1 with concepts :=
          db1.concepts.map (fun c =>
            if c.id == concept.id then { c with parent_concept_id := some parent.id }
            else c) }

/-- The try block of one iteration of the storage loop of
process_and_store_concepts. The validation loop over required_fields
is a no-op for control flow: its continue statement only continues the
inner loop over the field names, so no candidate is ever skipped by it;
a missing name instead surfaces as the KeyError raised inside
store_concept. -/
def tryStoreCandidate (paperId : Nat) (concept_data : ConceptData)
    (db : DB) : Except PyErr DB :=
  match store_concept concept_data paperId db with
  | .error e => .error e
  | .ok (concept, db1) =>
    let db2 :=
      if concept_data.related_concepts.isEmpty then db1
      else (store_concept_relations concept concept_data.related_concepts db1).2
    .ok (storeParentRelation concept concept_data db2)

/-- The storage loop of process_and_store_concepts: on an exception the
handler logs and calls db.rollback, which restores the last committed
store state and forgets every uncommitted write of earlier candidates;
stored_count is not reset. -/
def process_go (paperId : Nat) (committed : DB) (cds : List ConceptData)
    (db : DB) (count : Nat) : Nat × DB :=
  match cds with
  | [] => (count, db)
  | cd :: rest =>
    match tryStoreCandidate paperId cd db with
    | .ok db1 => process_go paperId committed rest db1 (count + 1)
    | .error _ => process_go paperId committed rest committed count

/-- TextAnalyzer.process_and_store_concepts, starting from the already
extracted candidate list: returns 0 immediately when the list is empty,
otherwise runs the storage loop and commits, returning stored_count.
The final commit is modelled as succeeding. -/
def process_and_store_concepts (candidates : List ConceptData)
    (paperId : Nat) (db : DB) : Nat × DB :=
  if candidates.isEmpty then (0, db)
  else
    let r := process_go paperId db candidates db 0
    -- db.commit(): flush the remaining pending rows and make them durable
    (r.1, { r.2 with relations := r.2.relations ++ r.2.pendingRelations,
                     pendingRelations := [] })

/-- A row of the papers table, reduced to the fields the claims need:
processed is true exactly when processed_at has been set by
Paper.mark_processed. -/
structure Paper where
  id : Nat
  processed : Bool
deriving DecidableEq, Repr

/-- One iteration of the loop in text_analyzer.main: process the
candidates of one paper and mark the paper processed exactly when the
returned concept count is positive. -/
def mainStep (candidates : List ConceptData) (paper : Paper) (db : DB) :
    Paper × Nat × DB :=
  let (concept_count, db1) := process_and_store_concepts candidates paper.id db
  (if concept_count > 0 then { paper with processed := true } else paper,
   concept_count, db1)

/-- A sequence of ingestion runs against the same store: each run is a
paper id together with the candidate list extracted for it. -/
def runIngestion : List (Nat × List ConceptData) → DB → DB
  | [], db => db
  | (pid, cds) :: rest, db =>
      runIngestion rest (process_and_store_concepts cds pid db).2

/-- Candidate record carrying only a name, every optional field absent. -/
def namedCand (nm : String) : ConceptData :=
  { name := some nm, category := none, description := none, context := none,
    confidence := none, related_concepts := [], parent_concept := none }

/-- Candidate record whose name key is absent. -/
def missingNameCand : ConceptData := { namedCand "" with name := none }

/-- Candidate record whose confidence is a non-numeric value. -/
def nonNumericConfCand : ConceptData :=
  { namedCand "B" with confidence := some (.str "not-a-number") }

/-- Candidate that names itself in related_concepts and as its parent. -/
def selfRefCand : ConceptData :=
  { namedCand "A" with related_concepts := ["A"], parent_concept := some "A" }

/-- Candidate with a name and a parent concept name. -/
def parentCand (nm pn : String) : ConceptData :=
  { namedCand nm with parent_concept := some pn }

/-- Candidate whose related_concepts list repeats one name. A single
candidate reaches the storage loop with its raw related list: the
deduplication pass merges across candidates by name but never removes
duplicates inside one related_concepts list. -/
def dupRelCand : ConceptData :=
  { namedCand "A" with related_concepts := ["B", "B"] }

/-- Concept names are pairwise distinct in the store. -/
abbrev NamesUnique (db : DB) : Prop := (db.concepts.map Concept.name).Nodup

/-- Concept primary keys are pairwise distinct in the store. -/
abbrev ConceptIdsUnique (db : DB) : Prop := (db.concepts.map Concept.id).Nodup

/-- Every concept primary key is below the autoincrement counter. -/
abbrev ConceptIdsBounded (db : DB) : Prop :=
  ∀ c ∈ db.concepts, c.id < db.nextConceptId

/-- The store invariant the engine maintains on the concepts table:
unique concept names and unique concept ids below the counter. -/
abbrev DBInv (db : DB) : Prop :=
  NamesUnique db ∧ ConceptIdsUnique db ∧ ConceptIdsBounded db

/-! Deduplication of raw extraction records
(TextAnalyzer._deduplicate_concepts). Records at this stage carry the
four fields the function reads unconditionally. -/

/-- One raw extraction record as consumed by the deduplication pass. -/
structure RawConcept where
  name : String
  confidence : ℚ
  context : String
  related_concepts : List String
deriving DecidableEq, Repr

/-- The union of two related_concepts lists. The source computes
list(set(a).union(set(b))), whose element order is unspecified; the
embedding fixes one order while keeping exactly the union of elements. -/
def relatedUnion (a b : List String) : List String :=
  a ++ b.filter (fun x => !a.contains x)

/-- The merge applied when a record hits an existing map entry: keep
the highest confidence, concatenate differing contexts, and union the
related concepts; name (and its key) stay those of the first record. -/
def mergeConcepts (existing c : RawConcept) : RawConcept :=
  { existing with
    confidence := max existing.confidence c.confidence,
    context :=
      if existing.context == c.context then existing.context
      else existing.context ++ "\n\n" ++ c.context,
    related_concepts := relatedUnion existing.related_concepts c.related_concepts }

/-- Lookup in the insertion-ordered concept_map. -/
def mapFind (m : List (String × RawConcept)) (key : String) : Option RawConcept :=
  match m with
  | [] => none
  | (k, v) :: rest => if k == key then some v else mapFind rest key

/-- One loop iteration over concept_map: merge into the existing entry
for the key, or append a new entry. -/
def mapUpdate (m : List (String × RawConcept)) (key : String) (c : RawConcept) :
    List (String × RawConcept) :=
  match m with
  | [] => [(key, c)]
  | (k, v) :: rest =>
    if k == key then (k, mergeConcepts v c) :: rest
    else (k, v) :: mapUpdate rest key c

/-- TextAnalyzer._deduplicate_concepts: fold the records into a map
keyed by the lowercased name, then return the values in insertion
order (list(concept_map.values())). -/
def deduplicate_concepts (concepts : List RawConcept) : List RawConcept :=
  (concepts.foldl (fun m c => mapUpdate m c.name.toLower c) []).map Prod.snd

/-- The merge of one group of records into one accumulated record, used
to state what the deduplication fold computes for a single map key. -/
def groupMerge : Option RawConcept → List RawConcept → Option RawConcept
  | o, [] => o
  | o, c :: rest =>
      match o with
      | none => groupMerge (some c) rest
      | some v => groupMerge (some (mergeConcepts v c)) rest

/-- Every map entry of the deduplication fold keys its value by the
lowercased name of the record it holds. -/
def EntriesCoherent (m : List (String × RawConcept)) : Prop :=
  ∀ e ∈ m, (e.2).name.toLower = e.1

/-! Extraction entry point (TextAnalyzer.extract_concepts_from_pdf).
The network call, the regex that selects the JSON substring of the
response, and json.loads are external effects; they enter the embedding
as explicit outcome values and functions the theorems quantify over. -/

/-- A parsed JSON value. -/
inductive JValue where
  | null
  | bool (b : Bool)
  | num (q : ℚ)
  | str (s : String)
  | arr (xs : List JValue)
  | obj (fields : List (String × JValue))

/-- data.get(key, default): field lookup on a JSON object; on any other
value the attribute access raises AttributeError. -/
def pyDictGet (v : JValue) (key : String) (dflt : JValue) : Except PyErr JValue :=
  match v with
  | .obj fields =>
      .ok ((((fields.find? (fun kv => kv.1 == key)).map Prod.snd)).getD dflt)
  | _ => .error .attributeError

/-- The containment test of the fallback branch. -/
def containsConceptsKey (s : String) : Bool :=
  2 ≤ (s.splitOn "\x22concepts\x22").length

/-- Python len() over a parsed JSON value: strings, arrays and objects
have a length; None, booleans and numbers raise TypeError. -/
def pyLen : JValue → Except PyErr Nat
  | .str s => .ok s.length
  | .arr xs => .ok xs.length
  | .obj fields => .ok fields.length
  | _ => .error .typeError

/-- Discriminates the JSON values that are lists. -/
def JValue.isArr : JValue → Bool
  | .arr _ => true
  | _ => false

/-- TextAnalyzer.extract_concepts_from_pdf, with its effectful steps
reified: parseJson is json.loads (error models a JSONDecodeError),
findJsonStr is the total regex selection of the JSON substring of the
response (code-block match, bare-object match, or the full text),
encodeResult the outcome of encode_pdf_base64 and apiResult the outcome
of the chat-completions call. The result is the value the Python
function returns; an error result would model an uncaught exception
escaping to the caller. -/
def extract_concepts_from_pdf
    (parseJson : String → Except Unit JValue)
    (findJsonStr : String → String)
    (encodeResult : Except String String)
    (apiResult : Except String String) : Except PyErr JValue :=
  match encodeResult with
  | .error _ => .ok (.arr [])
  | .ok _ =>
    match apiResult with
    | .error _ => .ok (.arr [])
    | .ok response_text =>
      let json_str := (findJsonStr response_text).trim
      match parseJson json_str with
      | .ok data =>
          -- concepts = data.get(\x22concepts\x22, []); an AttributeError
          -- here is caught by the outer handler, which returns []
          match pyDictGet data "concepts" (.arr []) with
          | .ok v =>
              -- the log line interpolates len(concepts); a TypeError
              -- there is caught by the outer handler, which returns []
              match pyLen v with
              | .ok _ => .ok v
              | .error _ => .ok (.arr [])
          | .error _ => .ok (.arr [])
      | .error _ =>
          -- fallback: wrap in braces when the text mentions concepts
          -- and does not already start with an opening brace
          if containsConceptsKey json_str && !(json_str.trim.startsWith "\x7b") then
            match parseJson ("\x7b" ++ json_str ++ "\x7d") with
            | .ok data =>
                match pyDictGet data "concepts" (.arr []) with
                | .ok v =>
                    -- the fallback log also takes len(concepts); its
                    -- TypeError is caught by the fallback handler and
                    -- the function falls through to return []
                    match pyLen v with
                    | .ok _ => .ok v
                    | .error _ => .ok (.arr [])
                | .error _ => .ok (.arr [])
            | .error _ => .ok (.arr [])
          else .ok (.arr [])

end PastPapers

namespace PastPapers

/-! Theorems. -/

/-- C4: the claim expects the storage loop to reject a candidate with an
empty or missing name while keeping the other two candidates, leaving
exactly 2 Occurrence rows. The code diverges on both variants. First
conjunct pair: an empty (present) name passes the field-presence check, so
the candidate is stored like any other, leaving 3 Occurrence rows and a
Concept row named by the empty string. Second conjunct pair: a missing
name is not skipped either, because the continue of the validation loop
only continues the inner loop over required_fields; store_concept raises
KeyError, and the handler calls rollback, which also discards the
uncommitted writes of candidate 1, leaving exactly 1 Occurrence row while
stored_count = 2 still marks the document processed. -/
theorem C4_validation_rollback_divergence :
    (process_and_store_concepts [namedCand "A", namedCand "", namedCand "C"]
        1 emptyDB).2.occurrences.length = 3
    ∧ ((process_and_store_concepts [namedCand "A", namedCand "", namedCand "C"]
        1 emptyDB).2.concepts.map Concept.name) = ["A", "", "C"]
    ∧ (process_and_store_concepts [namedCand "A", missingNameCand, namedCand "C"]
        1 emptyDB).2.occurrences.length = 1
    ∧ (process_and_store_concepts [namedCand "A", missingNameCand, namedCand "C"]
        1 emptyDB).1 = 2 := by decide

/-- C5: the claim states a document is marked processed only if at least
one concept was durably stored. Divergence: for the candidate list
[A, B-with-non-numeric-confidence], candidate B raises TypeError inside
Occurrence creation; the rollback discards the already stored writes of
candidate A, so the final commit persists nothing, yet stored_count = 1
makes main mark the paper processed. The resulting store equals the
empty store while the processed flag is set. -/
theorem C5_processed_without_durable_store :
    (mainStep [namedCand "A", nonNumericConfCand]
        { id := 1, processed := false } emptyDB).1.processed = true
    ∧ (mainStep [namedCand "A", nonNumericConfCand]
        { id := 1, processed := false } emptyDB).2.1 = 1
    ∧ (mainStep [namedCand "A", nonNumericConfCand]
        { id := 1, processed := false } emptyDB).2.2 = emptyDB := by decide

/-- C6 counterexample: the claim states that a candidate naming itself as
its own parent, or listing its own name in related_concepts, produces no
self-referential parent assignment and no self-loop edge. Running the
storage loop on exactly such a candidate over a fresh store produces a
Concept whose parent_concept_id is its own id and a ConceptRelation whose
two endpoints are the same concept, refuting the claim. -/
theorem C6_counterexample :
    (process_and_store_concepts [selfRefCand] 1 emptyDB).2 =
      { concepts := [{ id := 1, name := "A", category := none,
                       description := none, parent_concept_id := some 1 }],
        relations := [{ id := 1, concept1_id := 1, concept2_id := 1,
                        relation_type := "related", strength := 1 }],
        pendingRelations := [],
        occurrences := [{ id := 1, concept_id := 1, paper_id := 1,
                          question := none, context := none, confidence := 1 }],
        nextConceptId := 2, nextRelationId := 2,
        nextOccurrenceId := 2 } := by decide

/-- C7 counterexample: the claim states a concept whose parent_concept is
already set keeps it unchanged when a later candidate names a different
parent. After storing A with parent P and then A with parent Q, the row
named A carries parent_concept_id = some 3, the id of Q, not the id 2 of
P: the assignment is unconditional. -/
theorem C7_counterexample :
    runIngestion [(1, [parentCand "A" "P"]), (2, [parentCand "A" "Q"])]
        emptyDB =
      { concepts := [{ id := 1, name := "A", category := none,
                       description := none, parent_concept_id := some 3 },
                     { id := 2, name := "P", category := none,
                       description := none, parent_concept_id := none },
                     { id := 3, name := "Q", category := none,
                       description := none, parent_concept_id := none }],
        relations := [], pendingRelations := [],
        occurrences := [{ id := 1, concept_id := 1, paper_id := 1,
                          question := none, context := none, confidence := 1 },
                        { id := 2, concept_id := 1, paper_id := 2,
                          question := none, context := none, confidence := 1 }],
        nextConceptId := 4, nextRelationId := 1,
        nextOccurrenceId := 3 } := by decide

/-- C8 counterexample: the claim states an absent confidence is stored as
a configured default 0.8 distinct from the relation-strength default 1.0.
Storing a candidate with no confidence field yields an Occurrence whose
confidence is 1, and 1 is not 0.8: the default equals the
relation-strength default, and no 0.8 exists in the code. -/
theorem C8_counterexample :
    (store_concept (namedCand "A") 1 emptyDB).toOption =
      some ({ id := 1, name := "A", category := none, description := none,
              parent_concept_id := none },
            { concepts := [{ id := 1, name := "A", category := none,
                             description := none, parent_concept_id := none }],
              relations := [], pendingRelations := [],
              occurrences := [{ id := 1, concept_id := 1, paper_id := 1,
                                question := none, context := none,
                                confidence := 1 }],
              nextConceptId := 2, nextRelationId := 1,
              nextOccurrenceId := 2 })
    ∧ (1 : ℚ) ≠ 0.8 := ⟨by decide, by norm_num⟩

/-- C10 counterexample: the claim says extract_concepts_from_pdf returns
a list for every input. When the response parses to an object whose
"concepts" field is a string, the field passes the len() logging step
(strings have a length) and is returned unchanged, so the function
returns a string, not a list. -/
theorem C10_counterexample :
    extract_concepts_from_pdf
      (fun _ => .ok (.obj [("concepts", .str "x")])) (fun s => s)
      (.ok "pdfbytes") (.ok "resp") = .ok (.str "x")
    ∧ (JValue.str "x").isArr = false := ⟨rfl, rfl⟩

/-- C10 (amended): extract_concepts_from_pdf is total — whatever the
outcomes of its effectful steps (base64 encoding, the API call,
json.loads on the selected substring), it returns normally rather than
propagating an exception. Each named failure mode — encoding error, API
exception, JSON unparseable even after the brace-wrapping fallback —
returns the empty list, and so does a parsed "concepts" value without a
len() (None, a boolean or a number, via the TypeError of the logging
step). But a value that has a len() is returned unchanged whether or
not it is a list: on a successful parse the result is exactly the
"concepts" field filtered through data.get and len(), and an actual
list always passes that filter and is returned as-is. -/
theorem C10_extraction_total
    (parseJson : String → Except Unit JValue)
    (findJsonStr : String → String) :
    (∀ enc api : Except String String, ∃ v,
        extract_concepts_from_pdf parseJson findJsonStr enc api = .ok v)
    ∧ (∀ e api, extract_concepts_from_pdf parseJson findJsonStr
          (.error e) api = .ok (.arr []))
    ∧ (∀ b e, extract_concepts_from_pdf parseJson findJsonStr
          (.ok b) (.error e) = .ok (.arr []))
    ∧ (∀ b t, parseJson ((findJsonStr t).trim) = .error () →
        parseJson ("\x7b" ++ (findJsonStr t).trim ++ "\x7d") = .error () →
        extract_concepts_from_pdf parseJson findJsonStr
          (.ok b) (.ok t) = .ok (.arr []))
    ∧ (∀ b t data, parseJson ((findJsonStr t).trim) = .ok data →
        extract_concepts_from_pdf parseJson findJsonStr (.ok b) (.ok t) =
          .ok (match pyDictGet data "concepts" (.arr []) with
               | .error _ => .arr []
               | .ok v =>
                 match pyLen v with
                 | .error _ => .arr []
                 | .ok _ => v))
    ∧ (∀ b t data xs, parseJson ((findJsonStr t).trim) = .ok data →
        pyDictGet data "concepts" (.arr []) = .ok (.arr xs) →
        extract_concepts_from_pdf parseJson findJsonStr (.ok b) (.ok t) =
          .ok (.arr xs)) := by
  refine ⟨?_, ?_, ?_, ?_, ?_, ?_⟩
  · intro enc api
    cases enc with
    | error e => exact ⟨_, rfl⟩
    | ok b =>
      cases api with
      | error e => exact ⟨_, rfl⟩
      | ok t =>
        unfold extract_concepts_from_pdf
        cases hp : parseJson ((findJsonStr t).trim) with
        | ok data =>
          cases hg : pyDictGet data "concepts" (.arr []) with
          | ok v =>
            cases hl : pyLen v with
            | ok n => exact ⟨v, by simp [hp, hg, hl]⟩
            | error e => exact ⟨.arr [], by simp [hp, hg, hl]⟩
          | error e => exact ⟨.arr [], by simp [hp, hg]⟩
        | error u =>
          by_cases hc : (containsConceptsKey ((findJsonStr t).trim)
              && !(((findJsonStr t).trim).trim.startsWith "\x7b")) = true
          · simp only [hp, hc, if_true]
            cases hp2 : parseJson ("\x7b" ++ (findJsonStr t).trim ++ "\x7d") with
            | ok data =>
              cases hg : pyDictGet data "concepts" (.arr []) with
              | ok v =>
                cases hl : pyLen v with
                | ok n => exact ⟨v, by simp [hg, hl]⟩
                | error e => exact ⟨.arr [], by simp [hg, hl]⟩
              | error e => exact ⟨.arr [], by simp [hg]⟩
            | error u2 => exact ⟨_, rfl⟩
          · simp only [hp, hc, if_false]
            exact ⟨_, rfl⟩
  · intro e api
    rfl
  · intro b e
    rfl
  · intro b t h1 h2
    unfold extract_concepts_from_pdf
    simp only [h1, h2]
    split <;> rfl
  · intro b t data hp
    unfold extract_concepts_from_pdf
    simp only [hp]
    cases hg : pyDictGet data "concepts" (.arr []) with
    | error e => simp [hg]
    | ok v =>
      cases hl : pyLen v with
      | ok n => simp [hg, hl]
      | error e => simp [hg, hl]
  · intro b t data xs hp hg
    unfold extract_concepts_from_pdf
    simp [hp, hg, pyLen]

/-- C10 witness: the unparseable-JSON conjunct at a concrete input with
a parser that always fails, and the list-pass-through conjunct at a
concrete parsed object whose concepts field is a one-element list. -/
theorem C10_extraction_total_witness :
    extract_concepts_from_pdf (fun _ => .error ()) (fun s => s)
      (.ok "pdfbytes") (.ok "no json here") = .ok (.arr [])
    ∧ extract_concepts_from_pdf
        (fun _ => .ok (.obj [("concepts", .arr [.num 3])])) (fun s => s)
        (.ok "pdfbytes") (.ok "resp") = .ok (.arr [.num 3]) :=
  ⟨(C10_extraction_total (fun _ => .error ()) (fun s => s)).2.2.2.1
      "pdfbytes" "no json here" rfl rfl,
   (C10_extraction_total (fun _ => .ok (.obj [("concepts", .arr [.num 3])]))
      (fun s => s)).2.2.2.2.2 "pdfbytes" "resp"
      (.obj [("concepts", .arr [.num 3])]) [.num 3] rfl rfl⟩

/-! Helper lemmas about the lookups. -/

theorem findConcept_name {db : DB} {nm : String} {c : Concept}
    (h : db.findConcept nm = some c) : c.name = nm := by
  have hp := List.find?_some h
  simpa using hp

theorem findConcept_mem {db : DB} {nm : String} {c : Concept}
    (h : db.findConcept nm = some c) : c ∈ db.concepts :=
  List.mem_of_find?_eq_some h

theorem findConcept_none {db : DB} {nm : String}
    (h : db.findConcept nm = none) : ∀ c ∈ db.concepts, c.name ≠ nm := by
  intro c hc
  have := List.find?_eq_none.mp h c hc
  simpa using this

theorem find?_append_of_some {α : Type} {p : α → Bool} {l l2 : List α} {c : α}
    (h : l.find? p = some c) : (l ++ l2).find? p = some c := by
  rw [List.find?_append, h]
  rfl

theorem findConcept_mono {db db' : DB} (hpre : db.concepts <+: db'.concepts)
    {nm : String} {c : Concept} (h : db.findConcept nm = some c) :
    db'.findConcept nm = some c := by
  obtain ⟨t, ht⟩ := hpre
  unfold DB.findConcept at h ⊢
  rw [← ht]
  exact find?_append_of_some h

theorem findRelation_mono {db db' : DB} (hpre : db.relations <+: db'.relations)
    {c1 c2 : Nat} {r : ConceptRelation} (h : db.findRelation c1 c2 = some r) :
    db'.findRelation c1 c2 = some r := by
  obtain ⟨t, ht⟩ := hpre
  unfold DB.findRelation at h ⊢
  rw [← ht]
  exact find?_append_of_some h

theorem find?_name_of_mem {l : List Concept} {c : Concept}
    (hu : (l.map Concept.name).Nodup) (hc : c ∈ l) :
    l.find? (fun x => x.name == c.name) = some c := by
  induction l with
  | nil => cases hc
  | cons a rest ih =>
    rcases List.mem_cons.mp hc with rfl | hc2
    · simp [List.find?_cons]
    · have hu2 := hu
      rw [List.map_cons, List.nodup_cons] at hu2
      have hfalse : (a.name == c.name) = false := by
        simp only [beq_eq_false_iff_ne, ne_eq]
        intro he
        exact hu2.1 (he ▸ List.mem_map_of_mem Concept.name hc2)
      rw [List.find?_cons, hfalse]
      exact ih hu2.2 hc2

theorem findConcept_of_mem {db : DB} {c : Concept} (hu : NamesUnique db)
    (hc : c ∈ db.concepts) : db.findConcept c.name = some c :=
  find?_name_of_mem hu hc

theorem findRelation_none_pair {db : DB} {c1 c2 : Nat}
    (h : db.findRelation c1 c2 = none) :
    (c1, c2) ∉ db.relations.map (fun r => (r.concept1_id, r.concept2_id)) := by
  intro hmem
  obtain ⟨r, hr, hpair⟩ := List.mem_map.mp hmem
  have := List.find?_eq_none.mp h r hr
  simp only [Bool.and_eq_true, beq_iff_eq] at this
  have h1 : r.concept1_id = c1 := congrArg Prod.fst hpair
  have h2 : r.concept2_id = c2 := congrArg Prod.snd hpair
  exact this ⟨h1, h2⟩

theorem map_field_eq_of_mem {α β : Type} {f : α → β} {g : α → α} {l : List α}
    (h : ∀ a ∈ l, f (g a) = f a) : (l.map g).map f = l.map f := by
  induction l with
  | nil => rfl
  | cons a rest ih =>
    simp only [List.map_cons, List.cons.injEq]
    exact ⟨h a (List.mem_cons_self a rest),
      ih (fun b hb => h b (List.mem_cons_of_mem a hb))⟩

/-! Helper lemmas about findOrCreateBare. -/

theorem findOrCreateBare_found {nm : String} {db : DB} {r : Concept}
    (h : db.findConcept nm = some r) : findOrCreateBare nm db = (r, db) := by
  unfold findOrCreateBare
  rw [h]

theorem findOrCreateBare_new {nm : String} {db : DB}
    (h : db.findConcept nm = none) :
    findOrCreateBare nm db =
      ({ id := db.nextConceptId, name := nm, category := none,
         description := none, parent_concept_id := none },
       { db with
         concepts := db.concepts ++
           [{ id := db.nextConceptId, name := nm, category := none,
              description := none, parent_concept_id := none }],
         nextConceptId := db.nextConceptId + 1,
         relations := db.relations ++ db.pendingRelations,
         pendingRelations := [] }) := by
  unfold findOrCreateBare
  rw [h]

theorem findOrCreateBare_spec {nm : String} {db : DB} {r : Concept} {db1 : DB}
    (h : findOrCreateBare nm db = (r, db1)) :
    r.name = nm ∧ r ∈ db1.concepts ∧ db1.findConcept nm = some r ∧
    db.concepts <+: db1.concepts ∧
    db1.sessionRelations = db.sessionRelations ∧
    db1.occurrences = db.occurrences ∧
    db1.nextRelationId = db.nextRelationId ∧
    db1.nextOccurrenceId = db.nextOccurrenceId := by
  cases hf : db.findConcept nm with
  | some c =>
    rw [findOrCreateBare_found hf] at h
    injection h with h1 h2
    subst h1
    subst h2
    exact ⟨findConcept_name hf, findConcept_mem hf, hf,
      List.prefix_refl _, rfl, rfl, rfl, rfl⟩
  | none =>
    rw [findOrCreateBare_new hf] at h
    injection h with h1 h2
    subst h1
    subst h2
    refine ⟨rfl, ?_, ?_, ⟨_, rfl⟩, List.append_nil _, rfl, rfl, rfl⟩
    · simp
    · unfold DB.findConcept
      simp only [List.find?_append]
      rw [List.find?_eq_none.mpr (fun c hc => by
        simpa using findConcept_none hf c hc)]
      simp [List.find?_cons]

theorem findOrCreateBare_inv {nm : String} {db : DB} {r : Concept} {db1 : DB}
    (h : findOrCreateBare nm db = (r, db1)) (hi : DBInv db) : DBInv db1 := by
  obtain ⟨hnames, hids, hbound⟩ := hi
  cases hf : db.findConcept nm with
  | some c =>
    rw [findOrCreateBare_found hf] at h
    injection h with h1 h2
    subst h2
    exact ⟨hnames, hids, hbound⟩
  | none =>
    rw [findOrCreateBare_new hf] at h
    injection h with h1 h2
    subst h2
    refine ⟨?_, ?_, ?_⟩
    · unfold NamesUnique
      simp only [List.map_append, List.map_cons, List.map_nil]
      refine List.Nodup.append hnames (List.nodup_singleton _) ?_
      intro x hx hx2
      obtain ⟨c, hc, rfl⟩ := List.mem_map.mp hx
      simp only [List.mem_singleton] at hx2
      exact findConcept_none hf c hc hx2
    · unfold ConceptIdsUnique
      simp only [List.map_append, List.map_cons, List.map_nil]
      refine List.Nodup.append hids (List.nodup_singleton _) ?_
      intro x hx hx2
      obtain ⟨c, hc, rfl⟩ := List.mem_map.mp hx
      simp only [List.mem_singleton] at hx2
      exact absurd (hx2 ▸ hbound c hc) (lt_irrefl _)
    · intro c hc
      simp only [List.mem_append, List.mem_singleton] at hc
      rcases hc with hc | rfl
      · exact Nat.lt_succ_of_lt (hbound c hc)
      · exact Nat.lt_succ_self _

/-! Helper lemmas about store_concept. -/

theorem store_concept_cases {cd : ConceptData} {pid : Nat} {db : DB}
    {c : Concept} {db' : DB}
    (h : store_concept cd pid db = .ok (c, db')) :
    ∃ nm, cd.name = some nm ∧ c.name = nm ∧
      ((∃ c0, db.findConcept nm = some c0 ∧ c.id = c0.id ∧
          c.category = (if !optTruthy c0.category && optTruthy cd.category
                        then cd.category else c0.category) ∧
          c.description = (if !optTruthy c0.description && optTruthy cd.description
                           then cd.description else c0.description) ∧
          c.parent_concept_id = c0.parent_concept_id ∧
          db'.concepts = db.concepts.map
            (fun x => if x.id == c0.id then c else x) ∧
          db'.nextConceptId = db.nextConceptId)
       ∨ (db.findConcept nm = none ∧
          c = { id := db.nextConceptId, name := nm, category := cd.category,
                description := cd.description, parent_concept_id := none } ∧
          db'.concepts = db.concepts ++ [c] ∧
          db'.nextConceptId = db.nextConceptId + 1)) ∧
      db'.sessionRelations = db.sessionRelations ∧
      db.relations <+: db'.relations ∧
      db'.nextRelationId = db.nextRelationId ∧
      ∃ q, cd.confidence.getD (.num 1) = .num q ∧
        db'.occurrences = db.occurrences ++
          [{ id := db.nextOccurrenceId, concept_id := c.id, paper_id := pid,
             question := none, context := cd.context,
             confidence := clamp01 q }] ∧
        db'.nextOccurrenceId = db.nextOccurrenceId + 1 := by
  unfold store_concept at h
  cases hn : cd.name with
  | none => rw [hn] at h; exact absurd h (by simp)
  | some nm =>
    rw [hn] at h
    dsimp only at h
    refine ⟨nm, rfl, ?_⟩
    cases hf : db.findConcept nm with
    | some c0 =>
      rw [hf] at h
      dsimp only at h
      cases hcv : cd.confidence.getD (.num 1) with
      | str s =>
        rw [hcv] at h
        exact absurd h (by simp [occurrenceInit])
      | num q =>
        rw [hcv] at h
        simp only [occurrenceInit, Except.ok.injEq, Prod.mk.injEq] at h
        obtain ⟨rfl, rfl⟩ := h
        exact ⟨show c0.name = nm from findConcept_name hf,
          Or.inl ⟨c0, rfl, rfl, rfl, rfl, rfl, rfl, rfl⟩,
          rfl, List.prefix_refl _, rfl, q, rfl, rfl, rfl⟩
    | none =>
      rw [hf] at h
      dsimp only at h
      cases hcv : cd.confidence.getD (.num 1) with
      | str s =>
        rw [hcv] at h
        exact absurd h (by simp [occurrenceInit])
      | num q =>
        rw [hcv] at h
        simp only [occurrenceInit, Except.ok.injEq, Prod.mk.injEq] at h
        obtain ⟨rfl, rfl⟩ := h
        exact ⟨rfl, Or.inr ⟨rfl, rfl, rfl, rfl⟩,
          by simp [DB.sessionRelations], ⟨db.pendingRelations, rfl⟩,
          rfl, q, rfl, rfl, rfl⟩

theorem store_concept_missing_name {cd : ConceptData} {pid : Nat} {db : DB}
    (h : cd.name = none) :
    store_concept cd pid db = .error (.keyError "name") := by
  unfold store_concept
  rw [h]

theorem store_concept_nonnumeric {cd : ConceptData} {pid : Nat} {db : DB}
    {nm : String} {s : String} (hn : cd.name = some nm)
    (hc : cd.confidence = some (.str s)) :
    store_concept cd pid db = .error .typeError := by
  unfold store_concept
  rw [hn]
  dsimp only
  cases hf : db.findConcept nm with
  | some c0 => simp [hc, occurrenceInit]
  | none => simp [hc, occurrenceInit]

theorem store_concept_inv {cd : ConceptData} {pid : Nat} {db : DB}
    {c : Concept} {db' : DB}
    (h : store_concept cd pid db = .ok (c, db')) (hi : DBInv db) : DBInv db' := by
  obtain ⟨hnames, hids, hbound⟩ := hi
  obtain ⟨nm, hn, hcn, hmain, _, _, _, _⟩ := store_concept_cases h
  rcases hmain with ⟨c0, hf, hid, _, _, _, hcs, hnext⟩ | ⟨hf, hceq, hcs, hnext⟩
  · have hgname : ∀ x ∈ db.concepts,
        Concept.name (if x.id == c0.id then c else x) = x.name := by
      intro x hx
      by_cases hxe : x.id = c0.id
      · have hx0 : x = c0 :=
          List.inj_on_of_nodup_map hids hx (findConcept_mem hf) (by simp [hxe])
        rw [hx0]
        simp [hcn, findConcept_name hf]
      · simp [hxe]
    have hgid : ∀ x ∈ db.concepts,
        Concept.id (if x.id == c0.id then c else x) = x.id := by
      intro x hx
      by_cases hxe : x.id = c0.id
      · simp [hxe, hid]
      · simp [hxe]
    refine ⟨?_, ?_, ?_⟩
    · unfold NamesUnique
      rw [hcs, map_field_eq_of_mem hgname]
      exact hnames
    · unfold ConceptIdsUnique
      rw [hcs, map_field_eq_of_mem hgid]
      exact hids
    · intro x hx
      rw [hcs] at hx
      obtain ⟨a, ha, rfl⟩ := List.mem_map.mp hx
      rw [hnext, hgid a ha]
      exact hbound a ha
  · refine ⟨?_, ?_, ?_⟩
    · unfold NamesUnique
      rw [hcs]
      simp only [List.map_append, List.map_cons, List.map_nil]
      refine List.Nodup.append hnames (List.nodup_singleton _) ?_
      intro x hx hx2
      obtain ⟨a, ha, rfl⟩ := List.mem_map.mp hx
      simp only [List.mem_singleton] at hx2
      exact findConcept_none hf a ha (by rw [hx2, hcn])
    · unfold ConceptIdsUnique
      rw [hcs]
      simp only [List.map_append, List.map_cons, List.map_nil]
      refine List.Nodup.append hids (List.nodup_singleton _) ?_
      intro x hx hx2
      obtain ⟨a, ha, rfl⟩ := List.mem_map.mp hx
      simp only [List.mem_singleton] at hx2
      rw [hceq] at hx2
      simp only at hx2
      have hb := hbound a ha
      rw [hx2] at hb
      exact absurd hb (lt_irrefl _)
    · intro x hx
      rw [hcs] at hx
      rw [hnext]
      simp only [List.mem_append, List.mem_singleton] at hx
      rcases hx with hx | rfl
      · exact Nat.lt_succ_of_lt (hbound x hx)
      · rw [hceq]
        exact Nat.lt_succ_self _

theorem store_concept_mem {cd : ConceptData} {pid : Nat} {db : DB}
    {c : Concept} {db' : DB}
    (h : store_concept cd pid db = .ok (c, db')) :
    c ∈ db'.concepts := by
  obtain ⟨nm, hn, hcn, hmain, _, _, _, _⟩ := store_concept_cases h
  rcases hmain with ⟨c0, hf, _, _, _, _, hcs, _⟩ | ⟨hf, hceq, hcs, _⟩
  · rw [hcs]
    refine List.mem_map.mpr ⟨c0, findConcept_mem hf, ?_⟩
    simp
  · rw [hcs]
    simp

/-! Helper lemmas about store_concept_relations. -/

theorem clamp01_one : clamp01 1 = 1 := by norm_num [clamp01]

theorem relations_go_cons_skip {cid : Nat} {hd : String} {rest : List String}
    {rels : List ConceptRelation} {db : DB} (he : hd = "") :
    store_concept_relations_go cid (hd :: rest) rels db =
      store_concept_relations_go cid rest rels db := by
  conv_lhs => rw [store_concept_relations_go]
  rw [if_pos (by simp [he])]

theorem relations_go_cons_found {cid : Nat} {hd : String} {rest : List String}
    {rels : List ConceptRelation} {db : DB} {related : Concept} {db1 : DB}
    {r0 : ConceptRelation}
    (he : ¬hd = "") (hfc : findOrCreateBare hd db = (related, db1))
    (hfr : db1.findRelation cid related.id = some r0) :
    store_concept_relations_go cid (hd :: rest) rels db =
      store_concept_relations_go cid rest rels db1 := by
  conv_lhs => rw [store_concept_relations_go]
  rw [if_neg (by simp [he]), hfc]
  dsimp only
  rw [hfr]

theorem relations_go_cons_new {cid : Nat} {hd : String} {rest : List String}
    {rels : List ConceptRelation} {db : DB} {related : Concept} {db1 : DB}
    (he : ¬hd = "") (hfc : findOrCreateBare hd db = (related, db1))
    (hfr : db1.findRelation cid related.id = none) :
    store_concept_relations_go cid (hd :: rest) rels db =
      store_concept_relations_go cid rest
        (rels ++ [conceptRelationInit db1.nextRelationId cid related.id "related"])
        { db1 with
          pendingRelations := db1.pendingRelations
            ++ [conceptRelationInit db1.nextRelationId cid related.id "related"],
          nextRelationId := db1.nextRelationId + 1 } := by
  conv_lhs => rw [store_concept_relations_go]
  rw [if_neg (by simp [he]), hfc]
  dsimp only
  rw [hfr]

theorem relations_go_spec (cid : Nat) (names : List String) :
    ∀ rels db, DBInv db →
      DBInv (store_concept_relations_go cid names rels db).2
      ∧ db.concepts <+: (store_concept_relations_go cid names rels db).2.concepts
      ∧ db.sessionRelations <+:
          (store_concept_relations_go cid names rels db).2.sessionRelations
      ∧ (store_concept_relations_go cid names rels db).2.occurrences = db.occurrences
      ∧ (store_concept_relations_go cid names rels db).2.nextOccurrenceId
          = db.nextOccurrenceId
      ∧ (∀ r ∈ (store_concept_relations_go cid names rels db).2.sessionRelations,
          r ∈ db.sessionRelations
          ∨ (r.concept1_id = cid ∧ r.relation_type = "related" ∧ r.strength = 1)) := by
  induction names with
  | nil =>
    intro rels db hi
    exact ⟨hi, List.prefix_refl _, List.prefix_refl _, rfl, rfl,
      fun r hr => Or.inl hr⟩
  | cons hd rest ih =>
    intro rels db hi
    by_cases he : hd = ""
    · rw [relations_go_cons_skip he]
      exact ih rels db hi
    · rcases hfc : findOrCreateBare hd db with ⟨related, db1⟩
      obtain ⟨hrn, hrmem, hrfind, hcpre, hrels1, hocc1, hnri1, hnoi1⟩ :=
        findOrCreateBare_spec hfc
      have hinv1 := findOrCreateBare_inv hfc hi
      cases hfr : db1.findRelation cid related.id with
      | some r0 =>
        rw [relations_go_cons_found he hfc hfr]
        obtain ⟨i1, i2, i3, i4, i5, i6⟩ := ih rels db1 hinv1
        refine ⟨i1, hcpre.trans i2, ?_, i4.trans hocc1, i5.trans hnoi1, ?_⟩
        · rw [← hrels1]
          exact i3
        · intro r hr
          rcases i6 r hr with hmem | hnew
          · exact Or.inl (hrels1 ▸ hmem)
          · exact Or.inr hnew
      | none =>
        rw [relations_go_cons_new he hfc hfr]
        have hinv2 : DBInv { db1 with
            pendingRelations := db1.pendingRelations
              ++ [conceptRelationInit db1.nextRelationId cid related.id "related"],
            nextRelationId := db1.nextRelationId + 1 } := hinv1
        obtain ⟨i1, i2, i3, i4, i5, i6⟩ := ih
          (rels ++ [conceptRelationInit db1.nextRelationId cid related.id "related"])
          _ hinv2
        have hstep : db1.sessionRelations <+: (DB.sessionRelations
            { db1 with
              pendingRelations := db1.pendingRelations
                ++ [conceptRelationInit db1.nextRelationId cid related.id "related"],
              nextRelationId := db1.nextRelationId + 1 }) :=
          ⟨[conceptRelationInit db1.nextRelationId cid related.id "related"],
            by simp [DB.sessionRelations]⟩
        refine ⟨i1, hcpre.trans i2, ?_, i4.trans hocc1, i5.trans hnoi1, ?_⟩
        · rw [← hrels1]
          exact hstep.trans i3
        · intro r hr
          rcases i6 r hr with hmem | hnew
          · have hsplit : r ∈ db1.sessionRelations
                ∨ r = conceptRelationInit db1.nextRelationId cid
                    related.id "related" := by
              simp only [DB.sessionRelations, List.mem_append,
                List.mem_singleton] at hmem ⊢
              tauto
            rcases hsplit with h1 | h2
            · exact Or.inl (hrels1 ▸ h1)
            · refine Or.inr ⟨by rw [h2]; rfl, by rw [h2]; rfl, ?_⟩
              rw [h2]
              exact clamp01_one
          · exact Or.inr hnew

theorem relations_go_achieves (cid : Nat) (names : List String) :
    ∀ rels db, DBInv db → ∀ nm ∈ names, nm ≠ "" →
      ∃ t, (store_concept_relations_go cid names rels db).2.findConcept nm = some t
        ∧ ∃ r ∈ (store_concept_relations_go cid names rels db).2.sessionRelations,
            r.concept1_id = cid ∧ r.concept2_id = t.id := by
  induction names with
  | nil =>
    intro rels db _ nm hmem
    cases hmem
  | cons hd rest ih =>
    intro rels db hi nm hmem hne
    by_cases he : hd = ""
    · rw [relations_go_cons_skip he]
      rcases List.mem_cons.mp hmem with rfl | hmem2
      · exact absurd he hne
      · exact ih rels db hi nm hmem2 hne
    · rcases hfc : findOrCreateBare hd db with ⟨related, db1⟩
      obtain ⟨hrn, hrmem, hrfind, hcpre, hrels1, hocc1, hnri1, hnoi1⟩ :=
        findOrCreateBare_spec hfc
      have hinv1 := findOrCreateBare_inv hfc hi
      cases hfr : db1.findRelation cid related.id with
      | some r0 =>
        rw [relations_go_cons_found he hfc hfr]
        rcases List.mem_cons.mp hmem with rfl | hmem2
        · obtain ⟨_, hpreC, hpreR, _, _, _⟩ :=
            relations_go_spec cid rest rels db1 hinv1
          have hr0p := List.find?_some hfr
          simp only [Bool.and_eq_true, beq_iff_eq] at hr0p
          have hr0mem : r0 ∈ db1.sessionRelations :=
            List.mem_append_left _ (List.mem_of_find?_eq_some hfr)
          exact ⟨related, findConcept_mono hpreC hrfind,
            r0, hpreR.subset hr0mem, hr0p.1, hr0p.2⟩
        · exact ih rels db1 hinv1 nm hmem2 hne
      | none =>
        rw [relations_go_cons_new he hfc hfr]
        have hinv2 : DBInv { db1 with
            pendingRelations := db1.pendingRelations
              ++ [conceptRelationInit db1.nextRelationId cid related.id "related"],
            nextRelationId := db1.nextRelationId + 1 } := hinv1
        rcases List.mem_cons.mp hmem with rfl | hmem2
        · obtain ⟨_, hpreC, hpreR, _, _, _⟩ := relations_go_spec cid rest
            (rels ++ [conceptRelationInit db1.nextRelationId cid related.id "related"])
            _ hinv2
          refine ⟨related, findConcept_mono hpreC hrfind,
            conceptRelationInit db1.nextRelationId cid related.id "related",
            hpreR.subset ?_, rfl, rfl⟩
          simp [DB.sessionRelations]
        · exact ih
            (rels ++ [conceptRelationInit db1.nextRelationId cid related.id "related"])
            _ hinv2 nm hmem2 hne

theorem relations_go_noop (cid : Nat) (names : List String) :
    ∀ rels db,
      (∀ nm ∈ names, nm ≠ "" →
        ∃ t, db.findConcept nm = some t ∧ (db.findRelation cid t.id).isSome) →
      store_concept_relations_go cid names rels db = (rels, db) := by
  induction names with
  | nil =>
    intro rels db _
    rfl
  | cons hd rest ih =>
    intro rels db hyp
    by_cases he : hd = ""
    · rw [relations_go_cons_skip he]
      exact ih rels db (fun nm hm hne => hyp nm (List.mem_cons_of_mem hd hm) hne)
    · obtain ⟨t, hft, hfrS⟩ := hyp hd (List.mem_cons_self hd rest) he
      have hfc : findOrCreateBare hd db = (t, db) := findOrCreateBare_found hft
      obtain ⟨r0, hr0⟩ := Option.isSome_iff_exists.mp hfrS
      rw [relations_go_cons_found he hfc hr0]
      exact ih rels db (fun nm hm hne => hyp nm (List.mem_cons_of_mem hd hm) hne)

/-! Helper lemmas about storeParentRelation and the per-candidate step. -/

theorem storeParent_none {concept : Concept} {cd : ConceptData} {db : DB}
    (h : cd.parent_concept = none) : storeParentRelation concept cd db = db := by
  unfold storeParentRelation
  rw [h]

theorem storeParent_empty {concept : Concept} {cd : ConceptData} {db : DB}
    (h : cd.parent_concept = some "") : storeParentRelation concept cd db = db := by
  unfold storeParentRelation
  rw [h]
  rfl

theorem storeParent_eq {concept : Concept} {cd : ConceptData} {db : DB}
    {pn : String} {parent : Concept} {db1 : DB}
    (hp : cd.parent_concept = some pn) (hne : pn ≠ "")
    (hfc : findOrCreateBare pn db = (parent, db1)) :
    storeParentRelation concept cd db =
      { db1 with concepts := db1.concepts.map (fun c =>
          if c.id == concept.id
          then { c with parent_concept_id := some parent.id } else c) } := by
  unfold storeParentRelation
  rw [hp]
  dsimp only
  rw [if_neg (by simp [hne]), hfc]

theorem storeParent_inv {concept : Concept} {cd : ConceptData} {db : DB}
    (hi : DBInv db) : DBInv (storeParentRelation concept cd db) := by
  cases hp : cd.parent_concept with
  | none => rw [storeParent_none hp]; exact hi
  | some pn =>
    by_cases hne : pn = ""
    · rw [hne] at hp
      rw [storeParent_empty hp]
      exact hi
    · rcases hfc : findOrCreateBare pn db with ⟨parent, db1⟩
      rw [storeParent_eq hp hne hfc]
      obtain ⟨hnames, hids, hbound⟩ := findOrCreateBare_inv hfc hi
      have hname : ∀ a ∈ db1.concepts, Concept.name
          (if a.id == concept.id
           then { a with parent_concept_id := some parent.id } else a) = a.name := by
        intro a _
        by_cases hx : a.id = concept.id <;> simp [hx]
      have hid : ∀ a ∈ db1.concepts, Concept.id
          (if a.id == concept.id
           then { a with parent_concept_id := some parent.id } else a) = a.id := by
        intro a _
        by_cases hx : a.id = concept.id <;> simp [hx]
      refine ⟨?_, ?_, ?_⟩
      · unfold NamesUnique
        dsimp only
        rw [map_field_eq_of_mem hname]
        exact hnames
      · unfold ConceptIdsUnique
        dsimp only
        rw [map_field_eq_of_mem hid]
        exact hids
      · intro x hx
        simp only [List.mem_map] at hx
        obtain ⟨a, ha, rfl⟩ := hx
        rw [hid a ha]
        exact hbound a ha

theorem storeParent_frame (concept : Concept) (cd : ConceptData) (db : DB) :
    (storeParentRelation concept cd db).sessionRelations = db.sessionRelations
    ∧ (storeParentRelation concept cd db).occurrences = db.occurrences
    ∧ (storeParentRelation concept cd db).nextRelationId = db.nextRelationId
    ∧ (storeParentRelation concept cd db).nextOccurrenceId
        = db.nextOccurrenceId := by
  cases hp : cd.parent_concept with
  | none => rw [storeParent_none hp]; exact ⟨rfl, rfl, rfl, rfl⟩
  | some pn =>
    by_cases hne : pn = ""
    · rw [hne] at hp
      rw [storeParent_empty hp]
      exact ⟨rfl, rfl, rfl, rfl⟩
    · rcases hfc : findOrCreateBare pn db with ⟨parent, db1⟩
      rw [storeParent_eq hp hne hfc]
      obtain ⟨_, _, _, _, hrels, hocc, hnri, hnoi⟩ := findOrCreateBare_spec hfc
      exact ⟨hrels, hocc, hnri, hnoi⟩

theorem tryStore_eq {pid : Nat} {cd : ConceptData} {db : DB}
    {concept : Concept} {db1 : DB}
    (hsc : store_concept cd pid db = .ok (concept, db1)) :
    tryStoreCandidate pid cd db = .ok (storeParentRelation concept cd
      (if cd.related_concepts.isEmpty then db1
       else (store_concept_relations concept cd.related_concepts db1).2)) := by
  unfold tryStoreCandidate
  rw [hsc]

theorem tryStore_error {pid : Nat} {cd : ConceptData} {db : DB} {e : PyErr}
    (hsc : store_concept cd pid db = .error e) :
    tryStoreCandidate pid cd db = .error e := by
  unfold tryStoreCandidate
  rw [hsc]

theorem tryStore_inv {pid : Nat} {cd : ConceptData} {db db' : DB}
    (h : tryStoreCandidate pid cd db = .ok db') (hi : DBInv db) : DBInv db' := by
  cases hsc : store_concept cd pid db with
  | error e =>
    rw [tryStore_error hsc] at h
    exact absurd h (by simp)
  | ok p =>
    obtain ⟨concept, db1⟩ := p
    rw [tryStore_eq hsc] at h
    injection h with h2
    rw [← h2]
    apply storeParent_inv
    have hinv1 := store_concept_inv hsc hi
    by_cases hrel : cd.related_concepts.isEmpty
    · rw [if_pos hrel]
      exact hinv1
    · rw [if_neg hrel]
      exact (relations_go_spec concept.id cd.related_concepts [] db1 hinv1).1

theorem process_go_cons_ok {pid : Nat} {committed : DB} {cd : ConceptData}
    {rest : List ConceptData} {db : DB} {count : Nat} {db1 : DB}
    (h : tryStoreCandidate pid cd db = .ok db1) :
    process_go pid committed (cd :: rest) db count =
      process_go pid committed rest db1 (count + 1) := by
  conv_lhs => rw [process_go]
  rw [h]

theorem process_go_cons_err {pid : Nat} {committed : DB} {cd : ConceptData}
    {rest : List ConceptData} {db : DB} {count : Nat} {e : PyErr}
    (h : tryStoreCandidate pid cd db = .error e) :
    process_go pid committed (cd :: rest) db count =
      process_go pid committed rest committed count := by
  conv_lhs => rw [process_go]
  rw [h]

theorem process_go_inv (pid : Nat) (cds : List ConceptData) :
    ∀ committed db count, DBInv committed → DBInv db →
      DBInv (process_go pid committed cds db count).2 := by
  induction cds with
  | nil =>
    intro committed db count _ hdb
    exact hdb
  | cons cd rest ih =>
    intro committed db count hc hdb
    cases hts : tryStoreCandidate pid cd db with
    | ok db1 =>
      rw [process_go_cons_ok hts]
      exact ih committed db1 (count + 1) hc (tryStore_inv hts hdb)
    | error e =>
      rw [process_go_cons_err hts]
      exact ih committed committed count hc hc

theorem process_inv {cds : List ConceptData} {pid : Nat} {db : DB}
    (hi : DBInv db) : DBInv (process_and_store_concepts cds pid db).2 := by
  unfold process_and_store_concepts
  by_cases hemp : cds.isEmpty
  · rw [if_pos hemp]
    exact hi
  · rw [if_neg hemp]
    exact process_go_inv pid cds db db 0 hi hi

theorem runIngestion_inv (runs : List (Nat × List ConceptData)) :
    ∀ db, DBInv db → DBInv (runIngestion runs db) := by
  induction runs with
  | nil =>
    intro db hi
    exact hi
  | cons r rest ih =>
    intro db hi
    obtain ⟨pid, cds⟩ := r
    exact ih _ (process_inv hi)

theorem length_filter_le_one {α β : Type} [DecidableEq β] {f : α → β}
    {l : List α} (h : (l.map f).Nodup) (y : β) :
    (l.filter (fun x => f x == y)).length ≤ 1 := by
  induction l with
  | nil => simp
  | cons a rest ih =>
    rw [List.map_cons, List.nodup_cons] at h
    by_cases hy : f a = y
    · rw [List.filter_cons, if_pos (by simp [hy])]
      have hnil : rest.filter (fun x => f x == y) = [] := by
        rw [List.filter_eq_nil_iff]
        intro x hx
        simp only [beq_iff_eq]
        intro hfx
        exact h.1 (by rw [hy, ← hfx]; exact List.mem_map_of_mem f hx)
      simp [hnil]
    · rw [List.filter_cons, if_neg (by simp [hy])]
      exact ih h.2

/-- C1: resolution by case-sensitive name is the sole deduplication key:
store_concept reuses the existing row when a Concept with exactly that
name exists (same id, no new row) and creates one only otherwise, and
after any sequence of ingestion runs over a store satisfying the engine
invariant the Concept table holds at most one row per name. -/
theorem C1_unique_concept_names (runs : List (Nat × List ConceptData))
    (db0 : DB) (h : DBInv db0) :
    (∀ nm, ((runIngestion runs db0).concepts.filter
        (fun c => c.name == nm)).length ≤ 1)
    ∧ (∀ cd nm pid c0, cd.name = some nm →
        (runIngestion runs db0).findConcept nm = some c0 →
        ∀ c db', store_concept cd pid (runIngestion runs db0) = .ok (c, db') →
          c.id = c0.id ∧
          db'.concepts.map Concept.name
            = (runIngestion runs db0).concepts.map Concept.name)
    ∧ (∀ cd nm pid, cd.name = some nm →
        (runIngestion runs db0).findConcept nm = none →
        ∀ c db', store_concept cd pid (runIngestion runs db0) = .ok (c, db') →
          c.name = nm ∧
          db'.concepts.map Concept.name
            = (runIngestion runs db0).concepts.map Concept.name ++ [nm]) := by
  obtain ⟨hnames, hids, hbound⟩ := runIngestion_inv runs db0 h
  refine ⟨fun nm => length_filter_le_one hnames nm, ?_, ?_⟩
  · intro cd nm pid c0 hn hf c db' hok
    obtain ⟨nm2, hn2, hcn, hmain, _, _, _, _⟩ := store_concept_cases hok
    rw [hn] at hn2
    injection hn2 with hnm
    subst hnm
    rcases hmain with ⟨c0b, hfb, hid, _, _, _, hcs, _⟩ | ⟨hfb, _, _, _⟩
    · rw [hf] at hfb
      injection hfb with he
      subst he
      refine ⟨hid, ?_⟩
      rw [hcs]
      apply map_field_eq_of_mem
      intro a ha
      by_cases hae : a.id = c0.id
      · have ha0 : a = c0 :=
          List.inj_on_of_nodup_map hids ha (findConcept_mem hf) (by simp [hae])
        rw [ha0]
        simp [hcn, findConcept_name hf]
      · simp [hae]
    · rw [hf] at hfb
      exact absurd hfb (by simp)
  · intro cd nm pid hn hf c db' hok
    obtain ⟨nm2, hn2, hcn, hmain, _, _, _, _⟩ := store_concept_cases hok
    rw [hn] at hn2
    injection hn2 with hnm
    subst hnm
    rcases hmain with ⟨c0b, hfb, _⟩ | ⟨hfb, hceq, hcs, _⟩
    · rw [hf] at hfb
      exact absurd hfb (by simp)
    · refine ⟨hcn, ?_⟩
      rw [hcs]
      simp [hcn]

/-- C1 witness: the store invariant holds for the fresh store, and after
running the Recursion candidate twice the Concept table still holds at
most one row named Recursion. -/
theorem C1_unique_concept_names_witness :
    ((runIngestion [(1, [namedCand "Recursion"]), (2, [namedCand "Recursion"])]
        emptyDB).concepts.filter (fun c => c.name == "Recursion")).length ≤ 1 :=
  (C1_unique_concept_names
    [(1, [namedCand "Recursion"]), (2, [namedCand "Recursion"])]
    emptyDB (by decide)).1 "Recursion"

/-- C2: the claim says the store never holds more than one relation row
per exact ordered pair, because store_concept_relations checks for an
existing row before creating one. The check only sees flushed rows: the
session is created with autoflush=False and no flush happens between
db.add(relation) and the next existence query, so a related_concepts
list that repeats a name inserts one pending row per occurrence.
Processing the single candidate A with related_concepts ["B", "B"]
commits two distinct relation rows both carrying the ordered pair
(A, B), violating the claimed invariant. -/
theorem C2_duplicate_pair_rows :
    ((process_and_store_concepts [dupRelCand] 1 emptyDB).2.relations.map
        (fun r => (r.concept1_id, r.concept2_id)) = [(1, 2), (1, 2)])
    ∧ ((process_and_store_concepts [dupRelCand] 1 emptyDB).2.relations.map
        ConceptRelation.id = [1, 2])
    ∧ ((process_and_store_concepts [dupRelCand] 1 emptyDB).2.concepts.map
        (fun c => (c.id, c.name)) = [(1, "A"), (2, "B")])
    ∧ ¬ ((process_and_store_concepts [dupRelCand] 1 emptyDB).2.relations.map
        (fun r => (r.concept1_id, r.concept2_id))).Nodup := by
  refine ⟨by decide, by decide, by decide, by decide⟩

/-- C3: for an existing concept, a later candidate with the same name
fills category and description first-write-wins and per field
independently: the stored field changes only when it was empty or null
and the candidate value is non-empty, a non-empty stored value is never
overwritten, and the updated row is the row the store resolves for that
name afterwards. -/
theorem C3_first_write_wins (cd : ConceptData) (pid : Nat) (db : DB)
    (nm : String) (c0 : Concept) (hinv : DBInv db) (hn : cd.name = some nm)
    (hf : db.findConcept nm = some c0) :
    ∀ c db', store_concept cd pid db = .ok (c, db') →
      c.category = (if !optTruthy c0.category && optTruthy cd.category
                    then cd.category else c0.category)
      ∧ c.description = (if !optTruthy c0.description && optTruthy cd.description
                         then cd.description else c0.description)
      ∧ (optTruthy c0.category = true → c.category = c0.category)
      ∧ (optTruthy c0.description = true → c.description = c0.description)
      ∧ c ∈ db'.concepts ∧ db'.findConcept nm = some c := by
  intro c db' hok
  obtain ⟨nm2, hn2, hcn, hmain, _, _, _, _⟩ := store_concept_cases hok
  rw [hn] at hn2
  injection hn2 with hnm
  subst hnm
  rcases hmain with ⟨c0b, hfb, hid, hcat, hdesc, _, hcs, _⟩ | ⟨hfb, _, _, _⟩
  · rw [hf] at hfb
    injection hfb with he
    subst he
    have hmem : c ∈ db'.concepts := store_concept_mem hok
    have hinv2 := store_concept_inv hok hinv
    refine ⟨hcat, hdesc, ?_, ?_, hmem, ?_⟩
    · intro ht
      rw [hcat, if_neg (by simp [ht])]
    · intro ht
      rw [hdesc, if_neg (by simp [ht])]
    · have := findConcept_of_mem hinv2.1 hmem
      rw [hcn] at this
      exact this
  · rw [hf] at hfb
    exact absurd hfb (by simp)

/-- C3 witness: a concept stored with an empty category, re-encountered
with category Algorithms, ends with category Algorithms. -/
theorem C3_first_write_wins_witness :
    ({ id := 1, name := "A", category := some "Algorithms",
       description := none, parent_concept_id := none } : Concept).category
      = (if !optTruthy (none : Option String) && optTruthy (some "Algorithms")
         then some "Algorithms" else (none : Option String)) :=
  (C3_first_write_wins
    { namedCand "A" with category := some "Algorithms" } 1
    { concepts := [{ id := 1, name := "A", category := none,
                     description := none, parent_concept_id := none }],
      relations := [], pendingRelations := [], occurrences := [],
      nextConceptId := 2, nextRelationId := 1, nextOccurrenceId := 1 }
    "A" { id := 1, name := "A", category := none, description := none,
          parent_concept_id := none }
    (by decide) rfl (by decide)
    { id := 1, name := "A", category := some "Algorithms",
      description := none, parent_concept_id := none }
    { concepts := [{ id := 1, name := "A", category := some "Algorithms",
                     description := none, parent_concept_id := none }],
      relations := [], pendingRelations := [],
      occurrences := [{ id := 1, concept_id := 1, paper_id := 1,
                        question := none, context := none, confidence := 1 }],
      nextConceptId := 2, nextRelationId := 1, nextOccurrenceId := 2 }
    rfl).1

theorem storeParent_resolves {concept : Concept} {cd : ConceptData} {db2 : DB}
    {nm pn : String} (hinv2 : DBInv db2) (hcmem2 : concept ∈ db2.concepts)
    (hcn : concept.name = nm) (hp : cd.parent_concept = some pn)
    (hne : pn ≠ "") :
    ∃ cc p, (storeParentRelation concept cd db2).findConcept nm = some cc
      ∧ (storeParentRelation concept cd db2).findConcept pn = some p
      ∧ cc.parent_concept_id = some p.id ∧ cc.id = concept.id := by
  subst hcn
  rcases hfc : findOrCreateBare pn db2 with ⟨parent, db3⟩
  obtain ⟨hpn, hpmem, hpfind, hcpre3, _, _, _, _⟩ := findOrCreateBare_spec hfc
  have hinv3 := findOrCreateBare_inv hfc hinv2
  have hinvF : DBInv (storeParentRelation concept cd db2) := storeParent_inv hinv2
  rw [storeParent_eq hp hne hfc] at hinvF ⊢
  have hcmem3 : concept ∈ db3.concepts := hcpre3.subset hcmem2
  have hccmem : ({ concept with parent_concept_id := some parent.id } : Concept)
      ∈ db3.concepts.map (fun c => if c.id == concept.id
        then { c with parent_concept_id := some parent.id } else c) := by
    refine List.mem_map.mpr ⟨concept, hcmem3, ?_⟩
    simp
  have h1 := findConcept_of_mem hinvF.1 hccmem
  by_cases hpe : parent.id = concept.id
  · have hpc : parent = concept :=
      List.inj_on_of_nodup_map hinv3.2.1 hpmem hcmem3 (by simp [hpe])
    have hpneq : pn = concept.name := by rw [← hpn, hpc]
    refine ⟨{ concept with parent_concept_id := some parent.id },
            { concept with parent_concept_id := some parent.id }, h1, ?_, ?_, rfl⟩
    · rw [hpneq]
      exact h1
    · simp [hpe]
  · have hpimg : parent ∈ db3.concepts.map (fun c => if c.id == concept.id
        then { c with parent_concept_id := some parent.id } else c) :=
      List.mem_map.mpr ⟨parent, hpmem, by simp [hpe]⟩
    have h2 := findConcept_of_mem hinvF.1 hpimg
    rw [hpn] at h2
    exact ⟨{ concept with parent_concept_id := some parent.id }, parent,
      h1, h2, rfl, rfl⟩

/-- C6 (amended): self references are not skipped by the storage loop:
when a candidate lists its own name among related_concepts, a self-loop
edge whose two endpoints are the same concept exists after the step, and
when it names itself as its parent the stored row carries its own id as
parent_concept_id; only empty names are skipped. -/
theorem C6_selfref_amended (pid : Nat) (cd : ConceptData) (db : DB)
    (nm : String) (hinv : DBInv db) (hn : cd.name = some nm) (hne : nm ≠ "")
    (hrel : nm ∈ cd.related_concepts) (hpar : cd.parent_concept = some nm) :
    ∀ db', tryStoreCandidate pid cd db = .ok db' →
      (∃ r ∈ db'.sessionRelations, r.concept1_id = r.concept2_id)
      ∧ (∃ c ∈ db'.concepts, c.name = nm ∧ c.parent_concept_id = some c.id) := by
  intro db' h
  cases hsc : store_concept cd pid db with
  | error e =>
    rw [tryStore_error hsc] at h
    exact absurd h (by simp)
  | ok pr =>
    obtain ⟨concept, db1⟩ := pr
    rw [tryStore_eq hsc] at h
    injection h with h2
    subst h2
    have hinv1 := store_concept_inv hsc hinv
    have hcmem1 : concept ∈ db1.concepts := store_concept_mem hsc
    obtain ⟨nm2, hn2, hcn, _, _, _, _, _⟩ := store_concept_cases hsc
    rw [hn] at hn2
    injection hn2 with hnm
    subst hnm
    have hempty : cd.related_concepts.isEmpty = false := by
      cases hlist : cd.related_concepts with
      | nil => rw [hlist] at hrel; cases hrel
      | cons a b => rfl
    have hifeq : (if cd.related_concepts.isEmpty then db1
        else (store_concept_relations concept cd.related_concepts db1).2)
        = (store_concept_relations concept cd.related_concepts db1).2 := by
      rw [hempty]
      rfl
    rw [hifeq]
    unfold store_concept_relations
    obtain ⟨ginv, gpreC, gpreR, _, _, _⟩ :=
      relations_go_spec concept.id cd.related_concepts [] db1 hinv1
    have hfind1 : db1.findConcept nm = some concept := by
      have h0 := findConcept_of_mem hinv1.1 hcmem1
      rwa [hcn] at h0
    have hfind2 : (store_concept_relations_go concept.id
        cd.related_concepts [] db1).2.findConcept nm = some concept :=
      findConcept_mono gpreC hfind1
    obtain ⟨t, hft, r0, hr0mem, hr0c1, hr0c2⟩ := relations_go_achieves concept.id
      cd.related_concepts [] db1 hinv1 nm hrel hne
    have ht : t = concept := by
      rw [hft] at hfind2
      injection hfind2
    constructor
    · rw [(storeParent_frame concept cd _).1]
      exact ⟨r0, hr0mem, by rw [hr0c1, hr0c2, ht]⟩
    · have hcmem2 : concept ∈ (store_concept_relations_go concept.id
          cd.related_concepts [] db1).2.concepts := gpreC.subset hcmem1
      obtain ⟨cc, p, hfcc, hfp, hccp, hccid⟩ :=
        storeParent_resolves ginv hcmem2 hcn hpar hne
      have hpc : p = cc := by
        rw [hfcc] at hfp
        injection hfp with he
        rw [he]
      refine ⟨cc, findConcept_mem hfcc, findConcept_name hfcc, ?_⟩
      rw [hccp, hpc]

/-! Helper lemmas about the deduplication map. -/

theorem mapFind_nil {k : String} : mapFind [] k = none := rfl

theorem mapFind_cons_hit {hk : String} {hv : RawConcept}
    {rest : List (String × RawConcept)} {k : String} (h : hk = k) :
    mapFind ((hk, hv) :: rest) k = some hv := by
  unfold mapFind
  rw [if_pos (by simp [h])]

theorem mapFind_cons_miss {hk : String} {hv : RawConcept}
    {rest : List (String × RawConcept)} {k : String} (h : ¬hk = k) :
    mapFind ((hk, hv) :: rest) k = mapFind rest k := by
  conv_lhs => rw [mapFind]
  rw [if_neg (by simp [h])]

theorem mapUpdate_nil {key : String} {c : RawConcept} :
    mapUpdate [] key c = [(key, c)] := rfl

theorem mapUpdate_cons_hit {hk : String} {hv : RawConcept}
    {rest : List (String × RawConcept)} {key : String} {c : RawConcept}
    (h : hk = key) :
    mapUpdate ((hk, hv) :: rest) key c = (hk, mergeConcepts hv c) :: rest := by
  unfold mapUpdate
  rw [if_pos (by simp [h])]

theorem mapUpdate_cons_miss {hk : String} {hv : RawConcept}
    {rest : List (String × RawConcept)} {key : String} {c : RawConcept}
    (h : ¬hk = key) :
    mapUpdate ((hk, hv) :: rest) key c = (hk, hv) :: mapUpdate rest key c := by
  conv_lhs => rw [mapUpdate]
  rw [if_neg (by simp [h])]

theorem mem_relatedUnion {a b : List String} {x : String} :
    x ∈ relatedUnion a b ↔ x ∈ a ∨ x ∈ b := by
  unfold relatedUnion
  simp only [List.mem_append, List.mem_filter]
  constructor
  · rintro (h | ⟨h, _⟩)
    · exact Or.inl h
    · exact Or.inr h
  · rintro (h | h)
    · exact Or.inl h
    · by_cases ha : x ∈ a
      · exact Or.inl ha
      · refine Or.inr ⟨h, ?_⟩
        simp [ha]

theorem mapFind_mapUpdate (m : List (String × RawConcept)) (key k : String)
    (c : RawConcept) :
    mapFind (mapUpdate m key c) k =
      if k = key then
        (match mapFind m key with
         | some v => some (mergeConcepts v c)
         | none => some c)
      else mapFind m k := by
  induction m with
  | nil =>
    rw [mapUpdate_nil, mapFind_nil]
    by_cases h : k = key
    · rw [if_pos h, mapFind_cons_hit h.symm]
    · rw [if_neg h, mapFind_cons_miss (fun he => h he.symm), mapFind_nil]
  | cons hd rest ih =>
    obtain ⟨hk, hv⟩ := hd
    by_cases hhd : hk = key
    · rw [mapUpdate_cons_hit hhd]
      by_cases hkk : hk = k
      · rw [mapFind_cons_hit hkk, if_pos (by rw [← hkk, hhd]),
          mapFind_cons_hit hhd]
      · rw [mapFind_cons_miss hkk, mapFind_cons_hit hhd,
          if_neg (by rw [← hhd]; exact fun he => hkk he.symm),
          mapFind_cons_miss hkk]
    · rw [mapUpdate_cons_miss hhd]
      by_cases hkk : hk = k
      · rw [mapFind_cons_hit hkk, mapFind_cons_miss (hkk ▸ hhd),
          if_neg (fun he => hhd (by rw [hkk, he])), mapFind_cons_hit hkk]
      · rw [mapFind_cons_miss hkk, mapFind_cons_miss hhd, ih]
        by_cases hky : k = key
        · rw [if_pos hky, if_pos hky]
        · rw [if_neg hky, if_neg hky, mapFind_cons_miss hkk]

theorem mapFind_foldl (l : List RawConcept) :
    ∀ (m : List (String × RawConcept)) (k : String),
      mapFind (l.foldl (fun m c => mapUpdate m c.name.toLower c) m) k
        = groupMerge (mapFind m k)
            (l.filter (fun c => c.name.toLower == k)) := by
  induction l with
  | nil =>
    intro m k
    rfl
  | cons c rest ih =>
    intro m k
    rw [List.foldl_cons, List.filter_cons, ih]
    by_cases h : c.name.toLower = k
    · rw [if_pos (by simp [h])]
      subst h
      rw [mapFind_mapUpdate, if_pos rfl]
      cases hm : mapFind m c.name.toLower with
      | some v => rfl
      | none => rfl
    · rw [if_neg (by simp [h]), mapFind_mapUpdate,
        if_neg (fun he => h he.symm)]

theorem groupMerge_props (L : List RawConcept) :
    ∀ v, ∃ r, groupMerge (some v) L = some r
      ∧ r.name = v.name
      ∧ (r.confidence = v.confidence
         ∨ r.confidence ∈ L.map RawConcept.confidence)
      ∧ v.confidence ≤ r.confidence
      ∧ (∀ c ∈ L, c.confidence ≤ r.confidence)
      ∧ (∀ x, x ∈ r.related_concepts
          ↔ (x ∈ v.related_concepts ∨ ∃ c ∈ L, x ∈ c.related_concepts))
      ∧ v.context.data <:+: r.context.data
      ∧ (∀ c ∈ L, c.context.data <:+: r.context.data) := by
  induction L with
  | nil =>
    intro v
    exact ⟨v, rfl, rfl, Or.inl rfl, le_refl _, by simp, by simp,
      List.infix_refl _, by simp⟩
  | cons c rest ih =>
    intro v
    obtain ⟨r, hr, hname, hconf, hle, hall, hrel, hctx, hctxall⟩ :=
      ih (mergeConcepts v c)
    have hmc : (mergeConcepts v c).confidence
        = max v.confidence c.confidence := rfl
    have hmr : (mergeConcepts v c).related_concepts
        = relatedUnion v.related_concepts c.related_concepts := rfl
    have hvle : v.confidence ≤ (mergeConcepts v c).confidence := by
      rw [hmc]
      exact le_max_left _ _
    have hcle : c.confidence ≤ (mergeConcepts v c).confidence := by
      rw [hmc]
      exact le_max_right _ _
    have hvctx : v.context.data <:+: (mergeConcepts v c).context.data := by
      unfold mergeConcepts
      dsimp only
      by_cases he : v.context == c.context
      · rw [if_pos he]
      · rw [if_neg he, String.data_append, String.data_append]
        exact ((List.prefix_append _ _).trans (List.prefix_append _ _)).isInfix
    have hcctx : c.context.data <:+: (mergeConcepts v c).context.data := by
      unfold mergeConcepts
      dsimp only
      by_cases he : v.context == c.context
      · rw [if_pos he]
        rw [show c.context = v.context from (beq_iff_eq.mp he).symm]
      · rw [if_neg he, String.data_append]
        exact (List.suffix_append _ _).isInfix
    refine ⟨r, hr, by rw [hname]; rfl, ?_, le_trans hvle hle, ?_, ?_,
      hvctx.trans hctx, ?_⟩
    · rcases hconf with he | hmem
      · rw [he, hmc]
        rcases max_choice v.confidence c.confidence with hm | hm
        · exact Or.inl hm
        · refine Or.inr ?_
          rw [hm]
          simp
      · refine Or.inr ?_
        rw [List.map_cons]
        exact List.mem_cons_of_mem _ hmem
    · intro c2 hc2
      rcases List.mem_cons.mp hc2 with rfl | hmem
      · exact le_trans hcle hle
      · exact hall c2 hmem
    · intro x
      rw [hrel x, hmr, mem_relatedUnion]
      constructor
      · rintro ((h | h) | ⟨c2, hc2, hx⟩)
        · exact Or.inl h
        · exact Or.inr ⟨c, List.mem_cons_self _ _, h⟩
        · exact Or.inr ⟨c2, List.mem_cons_of_mem _ hc2, hx⟩
      · rintro (h | ⟨c2, hc2, hx⟩)
        · exact Or.inl (Or.inl h)
        · rcases List.mem_cons.mp hc2 with rfl | hmem
          · exact Or.inl (Or.inr hx)
          · exact Or.inr ⟨c2, hmem, hx⟩
    · intro c2 hc2
      rcases List.mem_cons.mp hc2 with rfl | hmem
      · exact hcctx.trans hctx
      · exact hctxall c2 hmem

theorem entriesCoherent_mapUpdate {m : List (String × RawConcept)}
    {key : String} {c : RawConcept}
    (hm : EntriesCoherent m) (hc : c.name.toLower = key) :
    EntriesCoherent (mapUpdate m key c) := by
  induction m with
  | nil =>
    intro e he
    rw [mapUpdate_nil] at he
    simp only [List.mem_singleton] at he
    rw [he]
    exact hc
  | cons hd rest ih =>
    obtain ⟨hk, hv⟩ := hd
    have hm1 : EntriesCoherent rest :=
      fun e he => hm e (List.mem_cons_of_mem _ he)
    have hmhd : hv.name.toLower = hk := hm (hk, hv) (List.mem_cons_self _ _)
    by_cases hhd : hk = key
    · rw [mapUpdate_cons_hit hhd]
      intro e he
      rcases List.mem_cons.mp he with rfl | hmem
      · exact hmhd
      · exact hm1 e hmem
    · rw [mapUpdate_cons_miss hhd]
      intro e he
      rcases List.mem_cons.mp he with rfl | hmem
      · exact hmhd
      · exact ih hm1 e hmem

theorem mapFind_none_iff {m : List (String × RawConcept)} {k : String} :
    mapFind m k = none ↔ k ∉ m.map Prod.fst := by
  induction m with
  | nil => simp [mapFind_nil]
  | cons hd rest ih =>
    obtain ⟨hk, hv⟩ := hd
    by_cases h : hk = k
    · rw [mapFind_cons_hit h]
      simp [h]
    · rw [mapFind_cons_miss h]
      simp only [List.map_cons, List.mem_cons, ih]
      constructor
      · intro hx hor
        rcases hor with he | hmem
        · exact h he.symm
        · exact hx hmem
      · intro hx hmem
        exact hx (Or.inr hmem)

theorem keys_mapUpdate (m : List (String × RawConcept)) (key : String)
    (c : RawConcept) :
    (mapUpdate m key c).map Prod.fst
      = if (mapFind m key).isSome then m.map Prod.fst
        else m.map Prod.fst ++ [key] := by
  induction m with
  | nil => simp [mapUpdate_nil, mapFind_nil]
  | cons hd rest ih =>
    obtain ⟨hk, hv⟩ := hd
    by_cases h : hk = key
    · rw [mapUpdate_cons_hit h, mapFind_cons_hit h]
      simp
    · rw [mapUpdate_cons_miss h, mapFind_cons_miss h]
      simp only [List.map_cons, ih]
      by_cases hs : (mapFind rest key).isSome
      · rw [if_pos hs, if_pos hs]
      · rw [if_neg hs, if_neg hs]
        rfl

theorem keys_nodup_mapUpdate {m : List (String × RawConcept)} {key : String}
    {c : RawConcept} (h : (m.map Prod.fst).Nodup) :
    ((mapUpdate m key c).map Prod.fst).Nodup := by
  rw [keys_mapUpdate]
  by_cases hs : (mapFind m key).isSome
  · rw [if_pos hs]
    exact h
  · rw [if_neg hs]
    have hnot : key ∉ m.map Prod.fst :=
      mapFind_none_iff.mp (Option.not_isSome_iff_eq_none.mp hs)
    refine List.Nodup.append h (List.nodup_singleton _) ?_
    intro x hx hx2
    simp only [List.mem_singleton] at hx2
    rw [hx2] at hx
    exact hnot hx

theorem fold_coherent_nodup (l : List RawConcept) :
    ∀ m, EntriesCoherent m → (m.map Prod.fst).Nodup →
      EntriesCoherent (l.foldl (fun m c => mapUpdate m c.name.toLower c) m)
      ∧ ((l.foldl (fun m c => mapUpdate m c.name.toLower c) m).map
          Prod.fst).Nodup := by
  induction l with
  | nil =>
    intro m h1 h2
    exact ⟨h1, h2⟩
  | cons c rest ih =>
    intro m h1 h2
    exact ih _ (entriesCoherent_mapUpdate h1 rfl) (keys_nodup_mapUpdate h2)

theorem mapFind_of_entry {m : List (String × RawConcept)} {k : String}
    {v : RawConcept} (hn : (m.map Prod.fst).Nodup) (hmem : (k, v) ∈ m) :
    mapFind m k = some v := by
  induction m with
  | nil => cases hmem
  | cons hd rest ih =>
    obtain ⟨hk, hv⟩ := hd
    rw [List.map_cons, List.nodup_cons] at hn
    rcases List.mem_cons.mp hmem with he | hmem2
    · injection he with h1 h2
      subst h1
      subst h2
      rw [mapFind_cons_hit rfl]
    · have hkne : ¬hk = k := by
        intro he
        exact hn.1 (he ▸ (List.mem_map.mpr ⟨(k, v), hmem2, rfl⟩))
      rw [mapFind_cons_miss hkne]
      exact ih hn.2 hmem2

theorem entry_of_mapFind {m : List (String × RawConcept)} {k : String}
    {v : RawConcept} (h : mapFind m k = some v) : (k, v) ∈ m := by
  induction m with
  | nil => cases h
  | cons hd rest ih =>
    obtain ⟨hk, hv⟩ := hd
    by_cases he : hk = k
    · rw [mapFind_cons_hit he] at h
      injection h with h2
      subst he
      subst h2
      exact List.mem_cons_self _ _
    · rw [mapFind_cons_miss he] at h
      exact List.mem_cons_of_mem _ (ih h)

/-- C9: _deduplicate_concepts merges candidates whose names are equal
after lowercasing into one output record per distinct lowercased name
(the keys of the output are duplicate-free and cover exactly the input
keys); each output record keeps the name of the first merged candidate,
its confidence is the maximum of the merged candidates, its
related_concepts hold exactly the union of theirs as a set, and every
merged candidate's context occurs inside the concatenated context. -/
theorem C9_dedup_merges (l : List RawConcept) :
    ((deduplicate_concepts l).map (fun r => r.name.toLower)).Nodup
    ∧ (∀ nm, (∃ c ∈ l, c.name.toLower = nm)
        ↔ ∃ r ∈ deduplicate_concepts l, r.name.toLower = nm)
    ∧ (∀ r ∈ deduplicate_concepts l,
        (∃ c ∈ l, r.name = c.name)
        ∧ r.confidence ∈ (l.filter
            (fun c => c.name.toLower == r.name.toLower)).map RawConcept.confidence
        ∧ (∀ c ∈ l, c.name.toLower = r.name.toLower →
            c.confidence ≤ r.confidence)
        ∧ (∀ x, x ∈ r.related_concepts
            ↔ ∃ c ∈ l, c.name.toLower = r.name.toLower ∧ x ∈ c.related_concepts)
        ∧ (∀ c ∈ l, c.name.toLower = r.name.toLower →
            c.context.data <:+: r.context.data)) := by
  obtain ⟨hcoh, hnodup⟩ := fold_coherent_nodup l []
    (fun e he => absurd he (List.not_mem_nil e)) (by simp)
  refine ⟨?_, ?_, ?_⟩
  · unfold deduplicate_concepts
    rw [List.map_map]
    have hmeq : List.map ((fun r : RawConcept => r.name.toLower) ∘ Prod.snd)
        (l.foldl (fun m c => mapUpdate m c.name.toLower c) [])
        = List.map Prod.fst
          (l.foldl (fun m c => mapUpdate m c.name.toLower c) []) :=
      List.map_congr_left (fun e he => hcoh e he)
    rw [hmeq]
    exact hnodup
  · intro nm
    constructor
    · rintro ⟨c, hc, hkey⟩
      have hfil : c ∈ l.filter (fun c2 => c2.name.toLower == nm) :=
        List.mem_filter.mpr ⟨hc, by simp [hkey]⟩
      have hf := mapFind_foldl l [] nm
      rw [mapFind_nil] at hf
      cases hfl : l.filter (fun c2 => c2.name.toLower == nm) with
      | nil =>
        rw [hfl] at hfil
        cases hfil
      | cons g0 grest =>
        rw [hfl] at hf
        obtain ⟨r, hr, _⟩ := groupMerge_props grest g0
        have hfr : mapFind (l.foldl
            (fun m c2 => mapUpdate m c2.name.toLower c2) []) nm = some r := by
          rw [hf]
          exact hr
        have hentry := entry_of_mapFind hfr
        exact ⟨r, List.mem_map.mpr ⟨(nm, r), hentry, rfl⟩,
          show r.name.toLower = nm from hcoh (nm, r) hentry⟩
    · rintro ⟨r, hrmem, hkey⟩
      obtain ⟨e, hemem, he⟩ := List.mem_map.mp hrmem
      obtain ⟨k, v⟩ := e
      have hev : v = r := he
      subst hev
      have hk : v.name.toLower = k := hcoh (k, v) hemem
      have hknm : k = nm := by rw [← hk, hkey]
      subst hknm
      have hfind := mapFind_of_entry hnodup hemem
      have hf := mapFind_foldl l [] k
      rw [mapFind_nil, hfind] at hf
      cases hfl : l.filter (fun c2 => c2.name.toLower == k) with
      | nil =>
        rw [hfl] at hf
        exact absurd hf (by simp [groupMerge])
      | cons g0 grest =>
        have hg0 : g0 ∈ l.filter (fun c2 => c2.name.toLower == k) := by
          rw [hfl]
          exact List.mem_cons_self _ _
        have hmf := List.mem_filter.mp hg0
        refine ⟨g0, hmf.1, ?_⟩
        have h2 := hmf.2
        simp only [beq_iff_eq] at h2
        exact h2
  · intro r hrmem
    obtain ⟨e, hemem, he⟩ := List.mem_map.mp hrmem
    obtain ⟨k, v⟩ := e
    have hev : v = r := he
    subst hev
    have hk : v.name.toLower = k := hcoh (k, v) hemem
    have hfind := mapFind_of_entry hnodup hemem
    have hf := mapFind_foldl l [] k
    rw [mapFind_nil, hfind] at hf
    cases hfl : l.filter (fun c2 => c2.name.toLower == k) with
    | nil =>
      rw [hfl] at hf
      exact absurd hf (by simp [groupMerge])
    | cons g0 grest =>
      rw [hfl] at hf
      have hstep : groupMerge none (g0 :: grest)
          = groupMerge (some g0) grest := rfl
      rw [hstep] at hf
      obtain ⟨r2, hr2, hname, hconf, hle, hall, hrel, hctx, hctxall⟩ :=
        groupMerge_props grest g0
      rw [hr2] at hf
      have hv : v = r2 := by
        injection hf
      subst hv
      have hfilmem : ∀ c2, (c2 ∈ l ∧ c2.name.toLower = k)
          ↔ (c2 = g0 ∨ c2 ∈ grest) := by
        intro c2
        rw [show (c2 = g0 ∨ c2 ∈ grest) ↔ c2 ∈ (g0 :: grest)
          from (List.mem_cons).symm, ← hfl, List.mem_filter]
        simp
      have hg0l : g0 ∈ l := ((hfilmem g0).mpr (Or.inl rfl)).1
      have hg0k : g0.name.toLower = k := ((hfilmem g0).mpr (Or.inl rfl)).2
      rw [hk]
      refine ⟨⟨g0, hg0l, hname⟩, ?_, ?_, ?_, ?_⟩
      · rw [hfl, List.map_cons]
        rcases hconf with heq | hmem
        · rw [heq]
          exact List.mem_cons_self _ _
        · exact List.mem_cons_of_mem _ hmem
      · intro c2 hc2 hck
        rcases (hfilmem c2).mp ⟨hc2, hck⟩ with rfl | hmem
        · exact hle
        · exact hall c2 hmem
      · intro x
        rw [hrel x]
        constructor
        · rintro (hx | ⟨c2, hc2, hx⟩)
          · exact ⟨g0, hg0l, hg0k, hx⟩
          · have hprop := (hfilmem c2).mpr (Or.inr hc2)
            exact ⟨c2, hprop.1, hprop.2, hx⟩
        · rintro ⟨c2, hc2, hck, hx⟩
          rcases (hfilmem c2).mp ⟨hc2, hck⟩ with rfl | hmem
          · exact Or.inl hx
          · exact Or.inr ⟨c2, hmem, hx⟩
      · intro c2 hc2 hck
        rcases (hfilmem c2).mp ⟨hc2, hck⟩ with rfl | hmem
        · exact hctx
        · exact hctxall c2 hmem

/-- C9 witness: two records whose names differ only by case collapse to
one record with duplicate-free lowercased keys. -/
theorem C9_dedup_merges_witness :
    ((deduplicate_concepts
        [{ name := "Tree", confidence := 1, context := "c1",
           related_concepts := ["Graph"] },
         { name := "tree", confidence := 1/2, context := "c2",
           related_concepts := ["Recursion"] }]).map
      (fun r => r.name.toLower)).Nodup :=
  (C9_dedup_merges
    [{ name := "Tree", confidence := 1, context := "c1",
       related_concepts := ["Graph"] },
     { name := "tree", confidence := 1/2, context := "c2",
       related_concepts := ["Recursion"] }]).1

/-- C6 witness: the self-referential candidate over a fresh store; at
the end of the per-candidate step the self-loop row is still pending,
visible in the session state. -/
theorem C6_selfref_amended_witness :
    (∃ r ∈ ({ concepts := [{ id := 1, name := "A", category := none,
                             description := none, parent_concept_id := some 1 }],
              relations := [],
              pendingRelations := [{ id := 1, concept1_id := 1, concept2_id := 1,
                                     relation_type := "related", strength := 1 }],
              occurrences := [{ id := 1, concept_id := 1, paper_id := 1,
                                question := none, context := none,
                                confidence := 1 }],
              nextConceptId := 2, nextRelationId := 2,
              nextOccurrenceId := 2 } : DB).sessionRelations,
        r.concept1_id = r.concept2_id)
    ∧ (∃ c ∈ ({ concepts := [{ id := 1, name := "A", category := none,
                               description := none, parent_concept_id := some 1 }],
                relations := [],
                pendingRelations := [{ id := 1, concept1_id := 1, concept2_id := 1,
                                       relation_type := "related", strength := 1 }],
                occurrences := [{ id := 1, concept_id := 1, paper_id := 1,
                                  question := none, context := none,
                                  confidence := 1 }],
                nextConceptId := 2, nextRelationId := 2,
                nextOccurrenceId := 2 } : DB).concepts,
        c.name = "A" ∧ c.parent_concept_id = some c.id) :=
  C6_selfref_amended 1 selfRefCand emptyDB "A" (by decide) rfl (by decide)
    (by decide) rfl _ rfl

/-- C7 (amended): parent assignment is last-write-wins: whenever a
stored candidate names a non-empty parent concept, the parent is
resolved find-or-create and the stored row for the candidate ends with
parent_concept_id equal to that parent's id, unconditionally — any
previously set parent reference is overwritten. -/
theorem C7_parent_lastwrite_amended (pid : Nat) (cd : ConceptData) (db : DB)
    (nm pn : String) (hinv : DBInv db) (hn : cd.name = some nm)
    (hp : cd.parent_concept = some pn) (hne : pn ≠ "") :
    ∀ db', tryStoreCandidate pid cd db = .ok db' →
      ∃ cc p, db'.findConcept nm = some cc ∧ db'.findConcept pn = some p
        ∧ cc.parent_concept_id = some p.id := by
  intro db' h
  cases hsc : store_concept cd pid db with
  | error e =>
    rw [tryStore_error hsc] at h
    exact absurd h (by simp)
  | ok pr =>
    obtain ⟨concept, db1⟩ := pr
    rw [tryStore_eq hsc] at h
    injection h with h2
    subst h2
    have hinv1 := store_concept_inv hsc hinv
    have hcmem1 : concept ∈ db1.concepts := store_concept_mem hsc
    obtain ⟨nm2, hn2, hcn, _, _, _, _, _⟩ := store_concept_cases hsc
    rw [hn] at hn2
    injection hn2 with hnm
    subst hnm
    by_cases hemp : cd.related_concepts.isEmpty
    · rw [if_pos hemp]
      obtain ⟨cc, p, h1, h2, h3, _⟩ :=
        storeParent_resolves hinv1 hcmem1 hcn hp hne
      exact ⟨cc, p, h1, h2, h3⟩
    · rw [if_neg hemp]
      obtain ⟨ginv, gpreC, _, _, _, _⟩ :=
        relations_go_spec concept.id cd.related_concepts [] db1 hinv1
      have hcmem2 : concept ∈ (store_concept_relations concept
          cd.related_concepts db1).2.concepts := gpreC.subset hcmem1
      obtain ⟨cc, p, h1, h2, h3, _⟩ :=
        storeParent_resolves ginv hcmem2 hcn hp hne
      exact ⟨cc, p, h1, h2, h3⟩

/-- C7 witness: on a store where A already points at parent P, storing A
again with parent Q resolves and assigns Q. -/
theorem C7_parent_lastwrite_amended_witness :
    ∃ cc p,
      (runIngestion [(1, [parentCand "A" "P"]), (2, [parentCand "A" "Q"])]
        emptyDB).findConcept "A" = some cc
      ∧ (runIngestion [(1, [parentCand "A" "P"]), (2, [parentCand "A" "Q"])]
          emptyDB).findConcept "Q" = some p
      ∧ cc.parent_concept_id = some p.id :=
  C7_parent_lastwrite_amended 2 (parentCand "A" "Q")
    (runIngestion [(1, [parentCand "A" "P"])] emptyDB) "A" "Q"
    (by decide) rfl rfl (by decide) _ rfl

/-- C8 (amended): confidence is clamped to the unit interval at
Occurrence creation (1.5 to 1.0, -0.3 to 0.0); an absent confidence
defaults to 1.0 — the same value as the relation-strength default, not
0.8 —, a non-numeric confidence raises TypeError inside the clamp so the
candidate is rejected rather than stored with a default, and relation
strength is likewise clamped at creation with default 1.0. -/
theorem C8_clamp_defaults :
    clamp01 1.5 = 1 ∧ clamp01 (-0.3) = 0
    ∧ (∀ oid cid2 pid qn ctx q, occurrenceInit oid cid2 pid qn ctx (.num q)
        = .ok { id := oid, concept_id := cid2, paper_id := pid, question := qn,
                context := ctx, confidence := clamp01 q })
    ∧ (∀ oid cid2 pid qn ctx s, occurrenceInit oid cid2 pid qn ctx (.str s)
        = .error .typeError)
    ∧ (∀ cd pid db nm c db', cd.name = some nm → cd.confidence = none →
        store_concept cd pid db = .ok (c, db') →
        db'.occurrences.map Occurrence.confidence
          = db.occurrences.map Occurrence.confidence ++ [1])
    ∧ (∀ cd pid db nm s, cd.name = some nm → cd.confidence = some (.str s) →
        store_concept cd pid db = .error .typeError)
    ∧ (∀ rid c1 c2 rt, (conceptRelationInit rid c1 c2 rt).strength = 1)
    ∧ (∀ rid c1 c2 rt st,
        (conceptRelationInit rid c1 c2 rt st).strength = clamp01 st) := by
  refine ⟨by norm_num [clamp01], by norm_num [clamp01], fun _ _ _ _ _ _ => rfl,
    fun _ _ _ _ _ _ => rfl, ?_, ?_, fun _ _ _ _ => clamp01_one, fun _ _ _ _ _ => rfl⟩
  · intro cd pid db nm c db' hn hconf hok
    obtain ⟨nm2, hn2, hcn, _, _, _, _, q, hq, hocc, _⟩ := store_concept_cases hok
    rw [hconf] at hq
    simp only [Option.getD_none, ConfVal.num.injEq] at hq
    rw [hocc]
    simp [← hq, clamp01_one]
  · intro cd pid db nm s hn hconf
    exact store_concept_nonnumeric hn hconf

/-- C8 witness: an absent confidence is stored as 1.0 over the fresh
store, and a non-numeric confidence makes store_concept raise. -/
theorem C8_clamp_defaults_witness :
    ({ concepts := [{ id := 1, name := "A", category := none,
                      description := none, parent_concept_id := none }],
       relations := [], pendingRelations := [],
       occurrences := [{ id := 1, concept_id := 1, paper_id := 1,
                         question := none, context := none, confidence := 1 }],
       nextConceptId := 2, nextRelationId := 1,
       nextOccurrenceId := 2 } : DB).occurrences.map Occurrence.confidence
      = emptyDB.occurrences.map Occurrence.confidence ++ [1]
    ∧ store_concept nonNumericConfCand 1 emptyDB = .error .typeError :=
  ⟨C8_clamp_defaults.2.2.2.2.1 (namedCand "A") 1 emptyDB "A"
      { id := 1, name := "A", category := none, description := none,
        parent_concept_id := none }
      { concepts := [{ id := 1, name := "A", category := none,
                       description := none, parent_concept_id := none }],
        relations := [], pendingRelations := [],
        occurrences := [{ id := 1, concept_id := 1, paper_id := 1,
                          question := none, context := none, confidence := 1 }],
        nextConceptId := 2, nextRelationId := 1, nextOccurrenceId := 2 }
      rfl rfl rfl,
   C8_clamp_defaults.2.2.2.2.2.1 nonNumericConfCand 1 emptyDB "B"
      "not-a-number" rfl rfl⟩

end PastPapers
